import Mathlib

/-!
# Verification of the vyb workspace core

A shallow embedding, in Lean 4, of the core path-matching, file-selection,
module-tree and annotation-scheduling logic of the `vyb` repository, together
with theorems settling the specification claims about it.

Conventions of the embedding:

* Go strings are modelled as `List Char` (abbreviated `Str`).  Go indexes
  strings by byte; for the ASCII pattern/path alphabet used throughout the
  matcher the two views coincide character by character.
* Go `int64` values are modelled as `Int` (overflow at 2^63 is not reachable
  for the token counts involved and is not modelled).
* Functions that take an `fs.FileInfo` in Go only consult `IsDir()`; they are
  modelled with an explicit `isDir : Bool` argument.  `os.Stat` / `fs.Stat`
  results are modelled as `Option Bool` (`none` = the path does not exist,
  `some isDir` = it exists), threaded in as an explicit argument.
* In-place mutation of a tree is modelled by functions returning the new tree.
-/

namespace Vyb

/-- A Go string, viewed as its list of characters. -/
abbrev Str := List Char

/-- `strings.HasPrefix s pre`. -/
def strStartsWith (s pre : Str) : Bool := pre.isPrefixOf s

/-- `strings.HasSuffix s suf`. -/
def strEndsWith (s suf : Str) : Bool := suf.isSuffixOf s

/-- `strings.TrimSuffix s suf`: removes one trailing occurrence of `suf`,
if present. -/
def strTrimSuffix (s suf : Str) : Str :=
  if strEndsWith s suf then s.take (s.length - suf.length) else s

/-- `strings.Split s "/"` (splitting on a single separator character):
always returns at least one (possibly empty) field. -/
def splitOnChar (sep : Char) : Str → List Str
  | [] => [[]]
  | c :: rest =>
    if c = sep then [] :: splitOnChar sep rest
    else
      match splitOnChar sep rest with
      | [] => [[c]]
      | s :: ss => (c :: s) :: ss

/-- `strings.Join parts "/"` restricted to the path use-site: interleaves a
single `/` between the parts. -/
def joinSlash : List Str → Str
  | [] => []
  | [s] => s
  | s :: rest => s ++ '/' :: joinSlash rest

/-- Removes all trailing occurrences of a character (the trailing-separator
stripping step of `filepath.Base`). -/
def dropTrailing (c : Char) (s : Str) : Str :=
  (s.reverse.dropWhile (· = c)).reverse

/-- The substring after the last `/` (the final step of `filepath.Base`). -/
def afterLastSlash (s : Str) : Str :=
  (s.reverse.takeWhile (· ≠ '/')).reverse

/-- `filepath.Base`: the last element of the path, after trailing separators
are removed; `"."` for the empty path, `"/"` for an all-separator path. -/
def filepathBase (path : Str) : Str :=
  if path = [] then ".".data
  else
    let p := dropTrailing '/' path
    if p = [] then ['/']
    else afterLastSlash p

/-! ## The pattern matcher (package `matcher`)

Embedding of `matchSingleSegment`, `matchTokens`, `isDirMatcher`,
`matchesPattern`, `matchesExclusionPatterns`, `matchesInclusionPatterns`,
`isIncluded`, `IsIncluded` and `IsExcluded` from `matchers.go`.
-/

/-- `matchSingleSegment`: matches a single path segment against a pattern
with `*` and `?` wildcards.  Mirrors the Go two-index loop: the first clause
is the loop exit with an empty segment (the remaining pattern must be all
`*`), the second the loop exit with an exhausted pattern. -/
def matchSingleSegment : Str → Str → Bool
  | [], pattern => pattern.all (· == '*')
  | _ :: _, [] => false
  | s, '*' :: ps =>
    if ps.isEmpty then true
    else (List.range (s.length + 1)).any (fun k => matchSingleSegment (s.drop k) ps)
  | _ :: s, '?' :: ps => matchSingleSegment s ps
  | c :: s, d :: ps => if c = d then matchSingleSegment s ps else false
termination_by structural _ pat => pat

/-- `matchTokens`: matches path segments against pattern segments, with `**`
matching zero or more whole segments. -/
def matchTokens : List Str → List Str → Bool
  | pathTokens, [] => pathTokens.isEmpty
  | pathTokens, head :: rest =>
    if head = "**".data then
      if matchTokens pathTokens rest then true
      else
        match pathTokens with
        | [] => false
        | _ :: ptl => matchTokens ptl (head :: rest)
    else
      match pathTokens with
      | [] => false
      | pt :: ptl =>
        if matchSingleSegment pt head then matchTokens ptl rest else false
termination_by p q => p.length + q.length

/-- `isDirMatcher`: the pattern ends with a slash, so it only matches
directories. -/
def isDirMatcher (matcher : Str) : Bool := strEndsWith matcher ['/']

/-- `matchesPattern`: matches a file path against one gitignore-style pattern.
`filepath.ToSlash` is the identity on the slash-separated relative paths this
embedding works with. -/
def matchesPattern (isDir : Bool) (filePath matcher : Str) (matchAll : Bool) : Bool :=
  let dirMatcher := isDirMatcher matcher
  if isDir && !dirMatcher then false
  else
    let normalizedPath := filePath
    if dirMatcher && !matchAll then
      let trimmed := strTrimSuffix matcher ['/']
      (normalizedPath == trimmed) || strStartsWith normalizedPath (trimmed ++ ['/'])
    else if !(matcher.contains '/') then
      matchSingleSegment (filepathBase normalizedPath) matcher
    else
      let matcher' := if strStartsWith matcher ['/'] then matcher.drop 1 else matcher
      matchTokens (splitOnChar '/' normalizedPath) (splitOnChar '/' matcher')

/-- The `for` loop of `matchesExclusionPatterns`, with the running `excluded`
flag as an accumulator.  A matching non-negated directory pattern returns
immediately. -/
def exclusionLoop (isDir : Bool) (filePath : Str) (excluded : Bool) : List Str → Bool
  | [] => excluded
  | pattern :: rest =>
    if pattern.isEmpty then exclusionLoop isDir filePath excluded rest
    else if strStartsWith pattern ['!'] then
      if matchesPattern isDir filePath (pattern.drop 1) false then
        exclusionLoop isDir filePath false rest
      else exclusionLoop isDir filePath excluded rest
    else if matchesPattern isDir filePath pattern false then
      if isDirMatcher pattern then true
      else exclusionLoop isDir filePath true rest
    else exclusionLoop isDir filePath excluded rest

/-- `matchesExclusionPatterns`: true if the file path matches the exclusion
pattern list (with `!`-negation, and immediate exit on directory patterns). -/
def matchesExclusionPatterns (isDir : Bool) (filePath : Str) (exclusionPatterns : List Str) : Bool :=
  exclusionLoop isDir filePath false exclusionPatterns

/-- The `for` loop of `matchesInclusionPatterns`: the first pattern that
matches decides (negated → excluded, non-negated → included). -/
def inclusionLoop (isDir : Bool) (filePath : Str) : List Str → Bool
  | [] => false
  | pattern :: rest =>
    if pattern.isEmpty then inclusionLoop isDir filePath rest
    else if strStartsWith pattern ['!'] then
      if matchesPattern isDir filePath (pattern.drop 1) true then false
      else inclusionLoop isDir filePath rest
    else if matchesPattern isDir filePath pattern true then true
    else inclusionLoop isDir filePath rest

/-- `matchesInclusionPatterns`: an empty inclusion list includes nothing;
otherwise the first matching pattern decides. -/
def matchesInclusionPatterns (isDir : Bool) (filePath : Str) (inclusionPatterns : List Str) : Bool :=
  if inclusionPatterns.length > 0 then inclusionLoop isDir filePath inclusionPatterns
  else false

/-- `isIncluded`: exclusion patterns are applied first; a non-excluded path
is included iff the inclusion patterns say so. -/
def isIncluded (isDir : Bool) (filePath : Str) (exclusionPatterns inclusionPatterns : List Str) : Bool :=
  if matchesExclusionPatterns isDir filePath exclusionPatterns then false
  else matchesInclusionPatterns isDir filePath inclusionPatterns

/-- The `IsDir` bit `IsIncluded` works with: the stat result when the path
exists, and the mock file info (directory iff the path ends in `/`) when it
does not. -/
def statIsDir (statResult : Option Bool) (filePath : Str) : Bool :=
  match statResult with
  | some isDir => isDir
  | none => strEndsWith filePath ['/']

/-- Exported `IsIncluded`: stats the path (modelled by `statResult`) and
falls back to a mock file info for non-existing paths. -/
def IsIncluded (statResult : Option Bool) (filePath : Str) (exclusionPatterns inclusionPatterns : List Str) : Bool :=
  isIncluded (statIsDir statResult filePath) filePath exclusionPatterns inclusionPatterns

/-- Exported `IsExcluded`: false when the path cannot be stat'd, otherwise
`matchesExclusionPatterns` on the stat'd file info. -/
def IsExcluded (statResult : Option Bool) (filePath : Str) (exclusionPatterns : List Str) : Bool :=
  match statResult with
  | some isDir => matchesExclusionPatterns isDir filePath exclusionPatterns
  | none => false

/-! ## The file selector (package `selector`)

Embedding of `Select` (the `commandBaseDir`/`target` variant of
`selector.go`), `computeEffectiveExclusions` and `parseGitignore`.

The filesystem seen through `fs.FS` is modelled as a finite tree of entries;
paths relative to the project root are lists of (non-empty, slash-free)
segments, with the root directory `"."` represented by `[]`.  `path.Clean`
and `filepath.ToSlash` are the identity on this representation.
`fs.WalkDir` visits a directory's entries in lexical order; the embedding
assumes the `FSEntry` lists are stored in that order.
-/

/-- One filesystem node: a file with contents, or a directory with entries. -/
inductive FSEntry where
  | file (name : Str) (content : Str)
  | dir (name : Str) (entries : List FSEntry)

/-- The entry's own name. -/
def FSEntry.name : FSEntry → Str
  | .file n _ => n
  | .dir n _ => n

/-- Finds the entry with the given name in a directory listing. -/
def findEntry (entries : List FSEntry) (n : Str) : Option FSEntry :=
  entries.find? (fun e => e.name == n)

/-- `fs.Stat` on the modelled tree: `none` when the path does not exist,
`some isDir` otherwise.  The root path `[]` (`"."`) is the root directory. -/
def statFS (entries : List FSEntry) : List Str → Option Bool
  | [] => some true
  | [s] =>
    match findEntry entries s with
    | some (.file _ _) => some false
    | some (.dir _ _) => some true
    | none => none
  | s :: rest =>
    match findEntry entries s with
    | some (.dir _ es) => statFS es rest
    | _ => none

/-- `unicode.IsSpace` restricted to the ASCII whitespace `strings.TrimSpace`
strips from `.gitignore` lines. -/
def isSpaceChar (c : Char) : Bool :=
  c = ' ' || c = '\t' || c = '\n' || c = '\r' || c = Char.ofNat 11 || c = Char.ofNat 12

/-- `strings.TrimSpace`. -/
def strTrimSpace (s : Str) : Str :=
  ((s.dropWhile isSpaceChar).reverse.dropWhile isSpaceChar).reverse

/-- `parseGitignore`: splits the file into lines, trims whitespace, and drops
blank lines and `#` comments. -/
def parseGitignore (data : Str) : List Str :=
  ((splitOnChar '\n' data).map strTrimSpace).filter
    (fun line => !line.isEmpty && !strStartsWith line ['#'])

/-- The patterns contributed by a directory's own `.gitignore` file: the tail
of `computeEffectiveExclusions` (nothing when the file is absent or is a
directory, in which case `fs.ReadFile` errors). -/
def gitignoreOf (entries : List FSEntry) : List Str :=
  match findEntry entries ".gitignore".data with
  | some (.file _ content) => parseGitignore content
  | _ => []

/-- The segment path rendered the way `fs.WalkDir` hands it to the matcher:
`"."` for the root, `a/b/c` otherwise. -/
def pathToString (p : List Str) : Str :=
  if p.isEmpty then ".".data else joinSlash p

/-- `isRelated` from `Select`: two clean relative paths are related iff one is
an ancestor of the other (string prefix up to a `/` boundary, which on the
segment representation is list prefix); the root `"."` (= `[]`) is related to
everything. -/
def isRelated (curr target : List Str) : Bool :=
  curr.isPrefixOf target || target.isPrefixOf curr

/-- The file-branch guard of `Select`'s walk callback:
`rel, err := filepath.Rel(startDir, currPath)` succeeds on two clean relative
paths and starts with `..` exactly when `startDir` is not an ancestor-or-self
of `currPath`; the file is processed only when it is. -/
def underStartDir (startDir p : List Str) : Bool :=
  startDir.isPrefixOf p

/-- The `startDir` computation at the top of `Select`: the cleaned
`commandBaseDir`, overridden by the target (a file target contributes its
parent directory, `path.Dir`) when the target can be stat'd. -/
def computeStartDir (rootEntries : List FSEntry) (commandBaseDir : List Str)
    (target : Option (List Str)) : List Str :=
  match target with
  | none => commandBaseDir
  | some t =>
    match statFS rootEntries t with
    | some false => t.dropLast
    | some true => t
    | none => commandBaseDir

mutual

/-- `fs.WalkDir` callback of `Select` applied to one entry of a visited,
non-excluded directory `dirPath` whose effective exclusion list is
`parentExcl`.  Returns the files appended to `results` while visiting this
entry (and, for directories, its subtree). -/
def walkEntry (startDir : List Str) (inclusionPatterns : List Str)
    (dirPath : List Str) (parentExcl : List Str) : FSEntry → List (List Str)
  | .file n _ =>
    let p := dirPath ++ [n]
    if underStartDir startDir p then
      if isIncluded false (pathToString p) parentExcl inclusionPatterns then [p] else []
    else []
  | .dir n es =>
    let p := dirPath ++ [n]
    if !(isRelated p startDir) then []
    else if matchesExclusionPatterns true (pathToString p) parentExcl then []
    else walkEntries startDir inclusionPatterns p (parentExcl ++ gitignoreOf es) es

/-- Walks the entries of one directory in order. -/
def walkEntries (startDir : List Str) (inclusionPatterns : List Str)
    (dirPath : List Str) (dirExcl : List Str) : List FSEntry → List (List Str)
  | [] => []
  | e :: es =>
    walkEntry startDir inclusionPatterns dirPath dirExcl e ++
      walkEntries startDir inclusionPatterns dirPath dirExcl es

end

/-- `Select` (the `commandBaseDir`/`target` variant): walks the whole tree
from the project root, pruning unrelated and excluded directories, inheriting
`.gitignore` patterns per directory, and collecting files under `startDir`
that `matcher.IsIncluded` accepts.  The root directory visit uses the
caller-supplied exclusion patterns (the `effectiveExclusions` fallback). -/
def Select (rootEntries : List FSEntry) (commandBaseDir : List Str)
    (target : Option (List Str)) (exclusionPatterns inclusionPatterns : List Str) :
    List (List Str) :=
  let startDir := computeStartDir rootEntries commandBaseDir target
  if !(isRelated [] startDir) then []
  else if matchesExclusionPatterns true (pathToString []) exclusionPatterns then []
  else walkEntries startDir inclusionPatterns []
    (exclusionPatterns ++ gitignoreOf rootEntries) rootEntries

/-! ## The execution context (package `context`)

Embedding of `NewExecutionContext`, `isDescendant` and `startsWithDotDot`
from `context.go`.  Absolute/relative clean paths are modelled as an
absolute-flag plus a list of segments (no `.`/`..`/empty segments), on which
`filepath.Clean` is the identity; `os.Stat` is an explicit
`GoPath → Option Bool` argument.
-/

/-- A clean filesystem path: absolute flag plus segments. -/
structure GoPath where
  abs : Bool
  segs : List Str
deriving DecidableEq, Repr

/-- `filepath.Join p s` for one extra component. -/
def filepathJoin (p : GoPath) (s : Str) : GoPath :=
  ⟨p.abs, p.segs ++ [s]⟩

/-- `filepath.Dir`: the path without its last component. -/
def filepathDir (p : GoPath) : GoPath :=
  ⟨p.abs, p.segs.dropLast⟩

/-- The segment list of `filepath.Rel parent child` on two clean paths
(`".."` segments first, then the residue of `child`); `[]` stands for
`"."`. -/
def relSegs : List Str → List Str → List Str
  | [], cs => cs
  | ps, [] => ps.map (fun _ => "..".data)
  | p :: ps, c :: cs =>
    if p = c then relSegs ps cs
    else (List.replicate (ps.length + 1) "..".data) ++ (c :: cs)

/-- `filepath.Rel parent child`: errors (`none`) when one path is absolute
and the other relative; otherwise the lexical relative path. -/
def goRel (parent child : GoPath) : Option (List Str) :=
  if parent.abs = child.abs then some (relSegs parent.segs child.segs) else none

/-- `startsWithDotDot`: the relative path is `".."` or starts with `"../"`,
i.e. its first segment is `".."`. -/
def startsWithDotDot (rel : List Str) : Bool :=
  rel.head? == some "..".data

/-- `isDescendant`: `child` equals `parent` or lies below it. -/
def isDescendant (parent child : GoPath) : Bool :=
  match goRel parent child with
  | none => false
  | some rel => rel.isEmpty || !(startsWithDotDot rel)

/-- The validated triple of scope paths. -/
structure ExecutionContext where
  projectRoot : GoPath
  workingDir : GoPath
  targetDir : GoPath
deriving DecidableEq, Repr

/-- The `.vyb` project-marker directory name. -/
def vybDirName : Str := ".vyb".data

/-- `NewExecutionContext`: validates the three scope paths in the order of the
source and returns `none` on any violation (error messages elided).  `stat`
models `os.Stat` (`some true` = existing directory, `some false` = existing
file, `none` = does not exist). -/
def NewExecutionContext (stat : GoPath → Option Bool)
    (projectRoot workingDir : GoPath) (targetFile : Option GoPath) :
    Option ExecutionContext :=
  if !projectRoot.abs || !workingDir.abs then none
  else if targetFile.any (fun t => !t.abs) then none
  else if !(stat (filepathJoin projectRoot vybDirName) == some true) then none
  else if !(isDescendant projectRoot workingDir) then none
  else
    match targetFile with
    | some t =>
      match stat t with
      | none => none
      | some true => none
      | some false =>
        if !(isDescendant workingDir t) then none
        else some ⟨projectRoot, workingDir, filepathDir t⟩
    | none => some ⟨projectRoot, workingDir, workingDir⟩

/-! ## The module tree (package `project`)

Embedding of the `Module`/`FileRef`/`Annotation` data model and of
`computeTokenCountFromChildren`, `computeHashFromChildren`,
`collapseModules` (filesystem.go) and `collapseByTokens` (metadata.go).

The Go `Parent` field is a non-owning back reference (recoverable from the
tree) and is not part of the owned structure; it is omitted.  The MD5 digest
of the `crypto/md5` library is abstracted as a function of its input bytes
(`computeHashFromBytes`); every property proved here depends only on it
being a function.
-/

/-- `FileRef`: one tracked file. -/
structure FileRef where
  name : Str
  lastModified : Int
  tokenCount : Int
  md5 : Str
deriving DecidableEq, Repr

/-- `Annotation`: the three per-module summaries. -/
structure Annotation where
  externalContext : Str
  internalContext : Str
  publicContext : Str
deriving DecidableEq, Repr

/-- `Module`: a hierarchical grouping of files.  Field order mirrors the Go
struct (minus the back reference `Parent`). -/
inductive Module where
  | mk (name : Str) (modules : List Module) (files : List FileRef)
       (directories : List Str) (annot : Option Annotation)
       (tokenCount : Int) (md5 : Str) (localTokenCount : Int)

/-- The module's full relative path name (root is `"."`). -/
def Module.name : Module → Str
  | .mk n _ _ _ _ _ _ _ => n

/-- The owned child modules. -/
def Module.modules : Module → List Module
  | .mk _ m _ _ _ _ _ _ => m

/-- The owned file references. -/
def Module.files : Module → List FileRef
  | .mk _ _ f _ _ _ _ _ => f

/-- The raw directories absorbed into the module. -/
def Module.directories : Module → List Str
  | .mk _ _ _ d _ _ _ _ => d

/-- The optional annotation. -/
def Module.annot : Module → Option Annotation
  | .mk _ _ _ _ a _ _ _ => a

/-- The total token count (own plus descendants). -/
def Module.tokenCount : Module → Int
  | .mk _ _ _ _ _ t _ _ => t

/-- The content hash. -/
def Module.md5 : Module → Str
  | .mk _ _ _ _ _ _ h _ => h

/-- The local token count (own files only). -/
def Module.localTokenCount : Module → Int
  | .mk _ _ _ _ _ _ _ l => l

/-- The root module's canonical name `"."`. -/
def rootName : Str := ".".data

/-- `computeTokenCountFromChildren`: sum of the child modules' total counts
and the files' counts. -/
def computeTokenCountFromChildren (modules : List Module) (files : List FileRef) : Int :=
  (modules.map Module.tokenCount).sum + (files.map FileRef.tokenCount).sum

/-- Byte-wise (code-point-wise) lexicographic `≤` on strings, the order
`sort.Strings` sorts by. -/
def strLe : Str → Str → Bool
  | [], _ => true
  | _ :: _, [] => false
  | a :: as, b :: bs => if a = b then strLe as bs else decide (a < b)

/-- `sort.Strings`: sorts a string slice in ascending lexicographic order. -/
def sortStrings (l : List Str) : List Str := l.mergeSort strLe

/-- `computeHashFromBytes`: the MD5 hex digest of the bytes, abstracted as a
function of its input (the identity embedding; the claims proved here depend
only on the digest being a deterministic function of the input). -/
def computeHashFromBytes (bytes : Str) : Str := bytes

/-- `computeHashFromChildren`: collects the child-module and file hashes,
sorts them, and hashes the sorted concatenation. -/
def computeHashFromChildren (modules : List Module) (files : List FileRef) : Str :=
  let hashes := modules.map Module.md5 ++ files.map FileRef.md5
  computeHashFromBytes (sortStrings hashes).flatten

/-- Package-level minimum token budget per module. -/
def minTokenCountPerModule : Int := 10000

/-- Package-level maximum token budget per module. -/
def maxTokenCountPerModule : Int := 100000

/-- The `for` loop inside `collapseModules`: while the module has exactly one
child module and no files, absorb that child (taking its name, modules and
files; all other fields stay). -/
def collapseLoop : Module → Module
  | .mk name mods files dirs ann tc md5 ltc =>
    match mods with
    | [sub] =>
      if files = [] then
        collapseLoop (.mk sub.name sub.modules sub.files dirs ann tc md5 ltc)
      else .mk name [sub] files dirs ann tc md5 ltc
    | _ => .mk name mods files dirs ann tc md5 ltc
termination_by m => sizeOf m.modules
decreasing_by
  cases sub with
  | mk n m f d a t h l => simp [Module.modules]; omega

/-- `collapseModules`: the structural collapse pass — children first, then
(except at the root) the single-child/no-files merge loop. -/
def collapseModules : Module → Module
  | .mk name mods files dirs ann tc md5 ltc =>
    let mods' := mods.attach.map (fun c => collapseModules c.val)
    if name = rootName then .mk name mods' files dirs ann tc md5 ltc
    else collapseLoop (.mk name mods' files dirs ann tc md5 ltc)
decreasing_by
  have := List.sizeOf_lt_of_mem c.property
  simp
  omega

/-- The indexed `for` loop inside `collapseByTokens`: examines the pending
children in order; a child below the minimum budget whose adoption keeps the
parent's local count within the maximum is merged (its files adopted, its
child modules appended at the end of the pending list, exactly as the Go
slice surgery does), otherwise it is kept. -/
def budgetLoop (files : List FileRef) (ltc : Int) (kept : List Module) :
    List Module → List FileRef × Int × List Module
  | [] => (files, ltc, kept)
  | child :: rest =>
    if child.localTokenCount < minTokenCountPerModule ∧
       ltc + child.localTokenCount ≤ maxTokenCountPerModule then
      budgetLoop (files ++ child.files) (ltc + child.localTokenCount) kept
        (rest ++ child.modules)
    else
      budgetLoop files ltc (kept ++ [child]) rest
termination_by pending => (pending.map sizeOf).sum
decreasing_by
  · have key : ∀ l : List Module, (l.map sizeOf).sum < sizeOf l := by
      intro l
      induction l with
      | nil => simp
      | cons a as ih => simp_all; omega
    have h2 : ((Module.modules child).map sizeOf).sum < sizeOf child := by
      cases child with
      | mk n m f d a t h l =>
        have := key m
        simp [Module.modules]
        omega
    simp [List.map_append]
    omega
  · have hpos : 0 < sizeOf child := by
      cases child with
      | mk n m f d a t h l => simp
    simp
    omega

/-- `collapseByTokens`: the budget collapse pass — children first, then
(except at the root, whose own children are never merged into it) the child
merge loop, with the module's files and local token count updated. -/
def collapseByTokens : Module → Module
  | .mk name mods files dirs ann tc md5 ltc =>
    let mods' := mods.attach.map (fun c => collapseByTokens c.val)
    if name = rootName then .mk name mods' files dirs ann tc md5 ltc
    else
      let r := budgetLoop files ltc [] mods'
      .mk name r.2.2 r.1 dirs ann tc md5 r.2.1
decreasing_by
  have := List.sizeOf_lt_of_mem c.property
  simp
  omega

/-- The two collapse passes of the module-tree builder, in specification
order: structural collapse, then budget collapse. -/
def collapsePasses (m : Module) : Module :=
  collapseByTokens (collapseModules m)

mutual

/-- `collectAllModules` (annotation.go): the module and all of its
descendants, depth-first, the module first. -/
def collectAllModules : Module → List Module
  | m@(.mk _ mods _ _ _ _ _ _) => m :: collectAllModulesList mods

/-- `collectAllModules` over a child list in order. -/
def collectAllModulesList : List Module → List Module
  | [] => []
  | c :: cs => collectAllModules c ++ collectAllModulesList cs

end

/-- All local token counts in the tree are non-negative (true of every tree
built from tokenizer output, whose counts are lengths). -/
def NonnegLocal (m : Module) : Prop :=
  ∀ x ∈ collectAllModules m, 0 ≤ x.localTokenCount

/-- All module names in the tree are distinct (true of every built tree:
names are full relative paths). -/
def NamesUnique (m : Module) : Prop :=
  ((collectAllModules m).map Module.name).Nodup

/-- The merge condition of the structural-collapse loop: exactly one child
module and no files. -/
def scond (m : Module) : Prop :=
  (∃ sub, m.modules = [sub]) ∧ m.files = []

/-- The merge condition of the budget-collapse loop, for a child of a parent
whose current local token count is `ltc`. -/
def bcond (ltc : Int) (c : Module) : Prop :=
  c.localTokenCount < minTokenCountPerModule ∧
    ltc + c.localTokenCount ≤ maxTokenCountPerModule

/-- A tree on which the structural-collapse pass is a no-op: no module other
than ones named `"."` satisfies the merge condition. -/
inductive SGood : Module → Prop where
  | intro (m : Module) :
      (m.name ≠ rootName → ¬ scond m) →
      (∀ c ∈ m.modules, SGood c) →
      SGood m

/-- A tree on which the budget-collapse pass is a no-op: no module other than
ones named `"."` has a child satisfying the merge condition. -/
inductive BGood : Module → Prop where
  | intro (m : Module) :
      (m.name ≠ rootName → ∀ c ∈ m.modules, ¬ bcond m.localTokenCount c) →
      (∀ c ∈ m.modules, BGood c) →
      BGood m

/-! ## Annotation-preserving patch (update.go)

Embedding of `collectModuleMap` and `mergeAnnotations`.  The Go
`map[string]*Module` is modelled as an association list where an insert
replaces an existing binding for the same key.
-/

/-- Go map insert: replaces the binding of `k` if present, appends
otherwise. -/
def mapPut (dst : List (Str × Module)) (k : Str) (v : Module) : List (Str × Module) :=
  match dst with
  | [] => [(k, v)]
  | (k', v') :: rest => if k' = k then (k, v) :: rest else (k', v') :: mapPut rest k v

mutual

/-- `collectModuleMap`: records every module of the tree under its name,
the module itself first and then its children. -/
def collectModuleMap : Module → List (Str × Module) → List (Str × Module)
  | m@(.mk _ mods _ _ _ _ _ _), dst => collectModuleMapList mods (mapPut dst m.name m)

/-- `collectModuleMap` folded over a child list in order. -/
def collectModuleMapList : List Module → List (Str × Module) → List (Str × Module)
  | [], dst => dst
  | c :: cs, dst => collectModuleMapList cs (collectModuleMap c dst)

end

mutual

/-- `mergeAnnotations`: walks the fresh tree and copies the stored annotation
for a module of the same name whose MD5 hash is unchanged (and whose stored
annotation is present); all other fields, and annotations not matched, stay
as in the fresh tree. -/
def mergeAnnotations : Module → List (Str × Module) → Module
  | .mk name mods files dirs ann tc md5 ltc, oldMap =>
    let ann' :=
      match oldMap.lookup name with
      | some old => if old.md5 = md5 ∧ old.annot ≠ none then old.annot else ann
      | none => ann
    .mk name (mergeAnnotationsList mods oldMap) files dirs ann' tc md5 ltc

/-- `mergeAnnotations` over the children in order. -/
def mergeAnnotationsList : List Module → List (Str × Module) → List Module
  | [], _ => []
  | c :: cs, oldMap => mergeAnnotations c oldMap :: mergeAnnotationsList cs oldMap

end

/-- One entry of `PatchResult.ChangedModules`. -/
structure ModuleChange where
  previousTokenCount : Int
  currentTokenCount : Int
deriving DecidableEq, Repr

/-- The change report of `Metadata.Patch`. -/
structure PatchResult where
  changedModules : List (Str × ModuleChange)
  addedModules : List Str
  removedModules : List Str
deriving DecidableEq, Repr

/-- Modelled from the spec: the body of `Metadata.Patch` is not among the
sources (only its callers in `Update`/`template.go` and its unit test are),
so the patch operation is modelled from §4.4 of the specification over the
source's `collectModuleMap` and `mergeAnnotations`: the fresh tree keeps its
structure and inherits stored annotations for name- and hash-identical
modules, and the result reports modules whose token count changed
(previous/current), names present only in the fresh tree, and names present
only in the stored tree. -/
def Patch (stored fresh : Module) : Module × PatchResult :=
  let oldMap := collectModuleMap stored []
  let freshNames := (collectAllModules fresh).map Module.name
  let storedNames := (collectAllModules stored).map Module.name
  let patched := mergeAnnotations fresh oldMap
  let changed := (collectAllModules fresh).filterMap (fun f =>
    match oldMap.lookup f.name with
    | some old =>
      if old.tokenCount ≠ f.tokenCount then
        some (f.name, ModuleChange.mk old.tokenCount f.tokenCount)
      else none
    | none => none)
  let added := freshNames.filter (fun n => !(storedNames.contains n))
  let removed := storedNames.filter (fun n => !(freshNames.contains n))
  (patched, PatchResult.mk changed added removed)

/-! ## The annotation scheduler (annotation.go)

`annotate` launches one goroutine per module lacking an annotation; each
goroutine receives from the completion channel of every direct child module
before calling the summarizer for its own module, and closes its own channel
afterwards (also on error).  Channels of modules that already carry an
annotation are closed up front.

The concurrency is embedded as a small-step relation on a scheduler state.
Tree nodes are identified by their address (the list of child indices from
the root — the pointer identity of the Go code).  `done` holds the addresses
whose completion channel has been closed, `started` the addresses whose
goroutine has invoked the summarizer, in invocation order.  An `invoke` step
is enabled exactly when the goroutine's waits have all returned, i.e. when
every direct child's channel is closed; a `finish` step closes the
goroutine's own channel afterwards.
-/

/-- A tree address: child indices from the root. -/
abbrev Addr := List Nat

/-- The module at an address, if any. -/
def moduleAt : Module → Addr → Option Module
  | m, [] => some m
  | m, i :: rest =>
    match m.modules.get? i with
    | some c => moduleAt c rest
    | none => none

/-- The addresses of the direct children of the module at an address. -/
def childAddrs (root : Module) (a : Addr) : List Addr :=
  match moduleAt root a with
  | some m => (List.range m.modules.length).map (fun i => a ++ [i])
  | none => []

mutual

/-- All valid addresses of the tree, depth first. -/
def allAddrs : Module → List Addr
  | .mk _ mods _ _ _ _ _ _ => [] :: allAddrsList 0 mods

/-- Addresses of the subtrees rooted at the children, the first child having
index `i`. -/
def allAddrsList : Nat → List Module → List Addr
  | _, [] => []
  | i, c :: cs => (allAddrs c).map (fun a => i :: a) ++ allAddrsList (i + 1) cs

end

/-- The pre-closed completion channels: addresses of modules that already
carry an annotation. -/
def preDone (root : Module) : List Addr :=
  (allAddrs root).filter (fun a =>
    match moduleAt root a with
    | some m => m.annot != none
    | none => false)

/-- The scheduler state: summarizer invocations so far (in order) and closed
completion channels. -/
structure SchedState where
  started : List Addr
  done : List Addr

/-- The initial scheduler state: nothing invoked, channels of
already-annotated modules closed. -/
def initSchedState (root : Module) : SchedState :=
  SchedState.mk [] (preDone root)

/-- One scheduler step.  `invoke`: a goroutine (launched only for a module
without an annotation) has received from all of its children's completion
channels and calls the summarizer.  `finish`: a goroutine that has run closes
its own completion channel (also in the error path). -/
inductive SchedStep (root : Module) : SchedState → SchedState → Prop where
  | invoke (s : SchedState) (a : Addr) (m : Module) :
      moduleAt root a = some m → m.annot = none →
      a ∉ s.started →
      (∀ c ∈ childAddrs root a, c ∈ s.done) →
      SchedStep root s (SchedState.mk (s.started ++ [a]) s.done)
  | finish (s : SchedState) (a : Addr) :
      a ∈ s.started → a ∉ s.done →
      SchedStep root s (SchedState.mk s.started (s.done ++ [a]))

/-- The reachable scheduler states of `annotate root`. -/
inductive SchedReach (root : Module) : SchedState → Prop where
  | init : SchedReach root (initSchedState root)
  | step {s s' : SchedState} : SchedReach root s → SchedStep root s s' → SchedReach root s'

/-! ## Specification-side predicates

Definitions that follow the specification's words (not the code), used to
compare spec and code where a claim asserts an equivalence.
-/

/-- The inclusion predicate exactly as the claim states it: the path matches
at least one non-negated inclusion pattern and is not matched by a **later**
negated inclusion pattern in the list. -/
def specC1Included (isDir : Bool) (filePath : Str) (incl : List Str) : Bool :=
  (List.range incl.length).any (fun i =>
    let q := incl.getD i []
    !(strStartsWith q ['!']) && matchesPattern isDir filePath q true &&
    ((List.range incl.length).all (fun j =>
      let r := incl.getD j []
      decide (j ≤ i) || !(strStartsWith r ['!']) ||
        !(matchesPattern isDir filePath (r.drop 1) true))))

/-- The inclusion predicate the code actually implements, expressed
declaratively: some non-negated pattern matches and no **earlier** negated
pattern matches (the first matching pattern in list order decides). -/
def earlierNegIncluded (isDir : Bool) (filePath : Str) (incl : List Str) : Prop :=
  ∃ pre q suf, incl = pre ++ q :: suf ∧
    strStartsWith q ['!'] = false ∧
    matchesPattern isDir filePath q true = true ∧
    ∀ r ∈ pre, strStartsWith r ['!'] = true →
      matchesPattern isDir filePath (r.drop 1) true = false

/-! ## Concrete example data for witnesses and counterexamples -/

/-- C3 witness tree: `work/a.txt`, `work/sub/c.txt`, `other/x.txt`. -/
def c3FS : List FSEntry :=
  [.dir "work".data
      [.file "a.txt".data "aa".data,
       .dir "sub".data [.file "c.txt".data "cc".data]],
   .dir "other".data [.file "x.txt".data "xx".data]]

/-- C4 witness filesystem: `/repo/.vyb` is a directory and
`/repo/work/t.txt` an existing file; nothing else exists. -/
def c4Stat : GoPath → Option Bool := fun p =>
  if p = GoPath.mk true ["repo".data, ".vyb".data] then some true
  else if p = GoPath.mk true ["repo".data, "work".data, "t.txt".data] then some false
  else none

/-- C5 witness: two modules with the same multiset of child hashes in
different orders. -/
def c5File1 : FileRef := FileRef.mk "m/a.txt".data 0 3 "hb".data

/-- Second file of the C5 witness. -/
def c5File2 : FileRef := FileRef.mk "m/b.txt".data 0 4 "ha".data

/-- First C5 module: files hashed `hb`, `ha` in that order. -/
def c5M1 : Module := .mk "m".data [] [c5File1, c5File2] [] none 7 [] 7

/-- Second C5 module: the same files in swapped order. -/
def c5M2 : Module := .mk "m".data [] [c5File2, c5File1] [] none 7 [] 7

/-- C6 counterexample: the file of the heavy sibling. -/
def c6File : FileRef := FileRef.mk "p/b/f.txt".data 0 20000 "hf".data

/-- C6 counterexample: an empty light child of `p`. -/
def c6A : Module := .mk "p/a".data [] [] [] none 0 [] 0

/-- C6 counterexample: a heavy sibling holding one file. -/
def c6B : Module := .mk "p/b".data [] [c6File] [] none 20000 "hb".data 20000

/-- C6 counterexample: the intermediate module `p`. -/
def c6P : Module := .mk "p".data [c6A, c6B] [] [] none 20000 "hp".data 20000

/-- C6 counterexample root: after one structural+budget round, `p` has
absorbed `p/a` and is left with a single child and no files, which a second
structural pass then collapses. -/
def c6Root : Module := .mk ".".data [c6P] [] [] none 20000 "hr".data 0

/-- C6 amended-claim witness tree (all token counts non-negative). -/
def c6W : Module :=
  .mk ".".data [.mk "q".data [.mk "q/r".data [] [] [] none 1 [] 1] [] [] none 2 [] 1] [] [] none 2 [] 0

/-- C7 counterexample: a direct child of the root with local token count 0,
eligible for merging by the claim's reading. -/
def c7A : Module := .mk "a".data [] [] [] none 0 "ha".data 0

/-- C7 counterexample root. -/
def c7Root : Module := .mk ".".data [c7A] [] [] none 0 "hr".data 0

/-- C7 amended-claim witness tree. -/
def c7W : Module :=
  .mk ".".data [.mk "w".data [.mk "w/v".data [] [] [] none 3 [] 3] [] [] none 4 [] 1] [] [] none 4 [] 0

/-- C8 witness: an annotation carried by the stored tree. -/
def c8Ann : Annotation := Annotation.mk "ext".data "int".data "pub".data

/-- C8 witness: stored child module. -/
def c8SChild : Module := .mk "sub".data [] [] [] (some c8Ann) 3 "hc".data 3

/-- C8 witness: the stored tree (annotated). -/
def c8Stored : Module := .mk ".".data [c8SChild] [] [] (some c8Ann) 8 "hr".data 5

/-- C8 witness: fresh child, hash-identical to the stored child, without an
annotation. -/
def c8FChild : Module := .mk "sub".data [] [] [] none 3 "hc".data 3

/-- C8 witness: a freshly built tree whose root hash differs from the stored
root's. -/
def c8Fresh : Module := .mk ".".data [c8FChild] [] [] none 9 "hr2".data 6

/-- C8 witness: a fresh tree structurally and hash-identical to the stored
tree (same names, hashes and token counts), with no annotations. -/
def c8FreshEq : Module :=
  .mk ".".data [.mk "sub".data [] [] [] none 3 "hc".data 3] [] [] none 8 "hr".data 5

/-- C9 witness: an already-annotated leaf. -/
def c9Child : Module := .mk "sub".data [] [] [] (some c8Ann) 1 "hc".data 1

/-- C9 witness: a root lacking an annotation, with one annotated child. -/
def c9Root : Module := .mk ".".data [c9Child] [] [] none 1 "hr".data 0

/-- C9 witness: the state after the root's goroutine invokes the summarizer
(enabled because the child's channel was pre-closed). -/
def c9State : SchedState := SchedState.mk [[]] (preDone c9Root)

/-! # Theorems -/

/-! ## Matcher lemmas -/

theorem isDirMatcher_ne_nil {p : Str} (h : isDirMatcher p = true) : p ≠ [] := by
  intro hnil
  subst hnil
  simp [isDirMatcher, strEndsWith, List.isSuffixOf] at h

theorem strEndsWith_of_tail {a : Char} {t suf : Str} (h : strEndsWith t suf = true) :
    strEndsWith (a :: t) suf = true := by
  simp only [strEndsWith, List.isSuffixOf_iff_suffix] at *
  exact h.trans (List.suffix_cons a t)

theorem isDirMatcher_drop_one {q : Str} (h : isDirMatcher q = false) :
    isDirMatcher (q.drop 1) = false := by
  cases q with
  | nil => simpa using h
  | cons a t =>
    simp only [List.drop_one, List.tail_cons]
    by_contra hne
    have ht : isDirMatcher t = true := by
      cases hh : isDirMatcher t
      · exact absurd hh hne
      · rfl
    have : isDirMatcher (a :: t) = true := strEndsWith_of_tail ht
    rw [this] at h
    simp at h

/-- A pattern without a trailing slash never matches a directory (the
shortcut at the top of `matchesPattern`). -/
theorem matchesPattern_dir_of_nondir {filePath q : Str} (h : isDirMatcher q = false)
    (matchAll : Bool) : matchesPattern true filePath q matchAll = false := by
  simp [matchesPattern, h]

/-- A non-negated directory pattern whose directory is an ancestor of the
path matches it, whatever the path's file kind. -/
theorem matchesPattern_dir_ancestor {filePath p : Str} (isDir : Bool)
    (hdir : isDirMatcher p = true)
    (hanc : strStartsWith filePath (strTrimSuffix p ['/'] ++ ['/']) = true) :
    matchesPattern isDir filePath p false = true := by
  simp [matchesPattern, hdir, hanc]

/-- The exclusion loop hits a matching non-negated directory pattern and
returns true immediately, whatever happened earlier in the list. -/
theorem exclusionLoop_dir_hit {isDir : Bool} {filePath p : Str}
    (hneg : strStartsWith p ['!'] = false) (hdir : isDirMatcher p = true)
    (hanc : strStartsWith filePath (strTrimSuffix p ['/'] ++ ['/']) = true) :
    ∀ (l : List Str), p ∈ l → ∀ acc, exclusionLoop isDir filePath acc l = true := by
  intro l
  induction l with
  | nil => intro h; simp at h
  | cons q rest ih =>
    intro hmem acc
    rcases List.mem_cons.mp hmem with rfl | hmem'
    · have hne : p.isEmpty = false := by
        cases hp : p with
        | nil => exact absurd hp (isDirMatcher_ne_nil hdir)
        | cons a t => rfl
      rw [exclusionLoop]
      simp [hne, hneg, matchesPattern_dir_ancestor isDir hdir hanc, hdir]
    · rw [exclusionLoop]
      by_cases h1 : q.isEmpty
      · simp only [h1, if_true]; exact ih hmem' acc
      · simp only [h1, Bool.false_eq_true, if_false]
        by_cases h2 : strStartsWith q ['!'] = true
        · simp only [h2, if_true]
          by_cases h3 : matchesPattern isDir filePath (q.drop 1) false = true
          · simp only [h3, if_true]; exact ih hmem' false
          · simp only [h3, if_false]; exact ih hmem' acc
        · simp only [h2, if_false]
          by_cases h3 : matchesPattern isDir filePath q false = true
          · simp only [h3, if_true]
            by_cases h4 : isDirMatcher q = true
            · simp [h4]
            · simp only [h4, if_false]; exact ih hmem' true
          · simp only [h3, if_false]; exact ih hmem' acc

/-- C2 claim, §4.1: a non-negated directory-only exclusion pattern covering an
ancestor of the path forces exclusion. -/
theorem matchesExclusionPatterns_dir_ancestor {isDir : Bool} {filePath p : Str}
    {excl : List Str} (hmem : p ∈ excl)
    (hneg : strStartsWith p ['!'] = false) (hdir : isDirMatcher p = true)
    (hanc : strStartsWith filePath (strTrimSuffix p ['/'] ++ ['/']) = true) :
    matchesExclusionPatterns isDir filePath excl = true :=
  exclusionLoop_dir_hit hneg hdir hanc excl hmem false

/-- **C2.** If a directory-only (trailing-slash) exclusion pattern in the
list, not negated, matches an ancestor directory of the path, then
`IsIncluded` returns false — whatever the inclusion patterns, the other
exclusion patterns (negated or not, before or after it), and the path's stat
result. -/
theorem C2_dir_exclusion_absolute (statResult : Option Bool) (filePath : Str)
    (exclusionPatterns inclusionPatterns : List Str) (p : Str)
    (hmem : p ∈ exclusionPatterns)
    (hneg : strStartsWith p ['!'] = false)
    (hdir : isDirMatcher p = true)
    (hanc : strStartsWith filePath (strTrimSuffix p ['/'] ++ ['/']) = true) :
    IsIncluded statResult filePath exclusionPatterns inclusionPatterns = false := by
  have hx := @matchesExclusionPatterns_dir_ancestor (statIsDir statResult filePath) filePath p
    exclusionPatterns hmem hneg hdir hanc
  simp [IsIncluded, isIncluded, hx]

/-- C2 witness: `dir/` excludes `dir/foo.txt` despite a later negation
`!dir/foo.txt` and a matching inclusion pattern. -/
theorem C2_dir_exclusion_absolute_witness :
    "dir/".data ∈ ["dir/".data, "!dir/foo.txt".data] ∧
    IsIncluded (some false) "dir/foo.txt".data ["dir/".data, "!dir/foo.txt".data]
      ["dir/foo.txt".data] = false := by
  refine ⟨by decide, ?_⟩
  exact C2_dir_exclusion_absolute (some false) _ _ _ "dir/".data (by decide) (by decide)
    (by decide) (by decide)

/-- The exclusion loop is the identity on its accumulator when every pattern
in the list lacks a trailing slash and the examined path is a directory. -/
theorem exclusionLoop_nondir_on_dir {filePath : Str} {l : List Str}
    (h : ∀ q ∈ l, isDirMatcher q = false) :
    ∀ acc, exclusionLoop true filePath acc l = acc := by
  induction l with
  | nil => intro acc; rfl
  | cons q rest ih =>
    intro acc
    have hq := h q (List.mem_cons_self q rest)
    have hrest : ∀ r ∈ rest, isDirMatcher r = false := fun r hr => h r (List.mem_cons_of_mem q hr)
    rw [exclusionLoop]
    by_cases h1 : q.isEmpty
    · simp only [h1, if_true]; exact ih hrest acc
    · simp only [h1, Bool.false_eq_true, if_false]
      by_cases h2 : strStartsWith q ['!'] = true
      · simp only [h2, if_true,
          matchesPattern_dir_of_nondir (isDirMatcher_drop_one hq) false, Bool.false_eq_true,
          if_false]
        exact ih hrest acc
      · simp only [h2, if_false, matchesPattern_dir_of_nondir hq false, Bool.false_eq_true,
          if_false]
        exact ih hrest acc

/-- **C10.** A pattern without a trailing slash never matches a path whose
file info reports a directory; consequently `IsExcluded` on an existing
directory is false whenever every exclusion pattern lacks a trailing slash. -/
theorem C10_nondir_patterns_never_match_dirs (filePath : Str) (exclusionPatterns : List Str)
    (h : ∀ q ∈ exclusionPatterns, isDirMatcher q = false) :
    (∀ q ∈ exclusionPatterns, ∀ matchAll, matchesPattern true filePath q matchAll = false) ∧
    IsExcluded (some true) filePath exclusionPatterns = false := by
  constructor
  · intro q hq matchAll
    exact matchesPattern_dir_of_nondir (h q hq) matchAll
  · simp only [IsExcluded, matchesExclusionPatterns]
    exact exclusionLoop_nondir_on_dir h false

/-- C10 witness: an existing directory `dir` is not excluded by the pattern
list `["dir", "d*"]`, although `"dir"` equals its name. -/
theorem C10_nondir_patterns_never_match_dirs_witness :
    (∀ q ∈ ["dir".data, "d*".data], isDirMatcher q = false) ∧
    IsExcluded (some true) "dir".data ["dir".data, "d*".data] = false := by
  have h : ∀ q ∈ ["dir".data, "d*".data], isDirMatcher q = false := by decide
  exact ⟨h, (C10_nondir_patterns_never_match_dirs "dir".data _ h).2⟩

/-! ## C1: inclusion-pattern semantics -/

theorem dropWhile_head_false {q : Char → Bool} :
    ∀ (l : Str) (a : Char) (t : Str), l.dropWhile q = a :: t → q a = false := by
  intro l
  induction l with
  | nil => intro a t h; simp at h
  | cons b l' ih =>
    intro a t h
    rw [List.dropWhile_cons] at h
    by_cases hb : q b = true
    · rw [if_pos hb] at h; exact ih a t h
    · rw [if_neg hb] at h
      cases h
      simpa using hb

theorem filepathBase_ne_nil (path : Str) : filepathBase path ≠ [] := by
  rw [filepathBase]
  by_cases h0 : path = []
  · simp [h0]
  · rw [if_neg h0]
    by_cases h1 : dropTrailing '/' path = []
    · simp [h1]
    · rw [if_neg h1]
      rcases hrev : (dropTrailing '/' path).reverse with _ | ⟨a, t⟩
      · exact absurd (by simpa using congrArg List.reverse hrev) h1
      · have ha : (a = '/') = False := by
          have : (path.reverse.dropWhile (· = '/')) = a :: t := by
            have := congrArg List.reverse hrev
            simpa [dropTrailing] using this
          have := dropWhile_head_false path.reverse a t this
          simpa using this
        simp [afterLastSlash, hrev, List.takeWhile_cons, ha]

theorem matchesPattern_empty (isDir : Bool) (filePath : Str) (matchAll : Bool) :
    matchesPattern isDir filePath [] matchAll = false := by
  have hbase := filepathBase_ne_nil filePath
  rcases h : filepathBase filePath with _ | ⟨a, t⟩
  · exact absurd h hbase
  · cases isDir <;> simp [matchesPattern, isDirMatcher, strEndsWith, List.isSuffixOf, h,
      matchSingleSegment]

theorem inclusionLoop_iff (isDir : Bool) (filePath : Str) :
    ∀ incl : List Str,
      inclusionLoop isDir filePath incl = true ↔ earlierNegIncluded isDir filePath incl := by
  intro incl
  induction incl with
  | nil =>
    constructor
    · intro h; simp [inclusionLoop] at h
    · rintro ⟨pre, q, suf, h, -⟩
      exact absurd h (by simp)
  | cons p rest ih =>
    rw [inclusionLoop]
    by_cases h1 : p.isEmpty
    · have hp : p = [] := by simpa [List.isEmpty_iff] using h1
      subst hp
      rw [if_pos h1, ih]
      constructor
      · rintro ⟨pre, q, suf, heq, hq, hmatch, hpre⟩
        exact ⟨[] :: pre, q, suf, by simp [heq], hq, hmatch, by
          intro r hr hneg
          rcases List.mem_cons.mp hr with rfl | hr'
          · exact absurd hneg (by decide)
          · exact hpre r hr' hneg⟩
      · rintro ⟨pre, q, suf, heq, hq, hmatch, hpre⟩
        rcases pre with _ | ⟨a, pre'⟩
        · cases heq
          exact absurd hmatch (by simp [matchesPattern_empty])
        · rcases List.cons.injEq _ _ _ _ ▸ heq with ⟨rfl, hrest⟩
          exact ⟨pre', q, suf, hrest, hq, hmatch, fun r hr => hpre r (List.mem_cons_of_mem _ hr)⟩
    · rw [if_neg h1]
      by_cases h2 : strStartsWith p ['!'] = true
      · rw [if_pos h2]
        by_cases h3 : matchesPattern isDir filePath (p.drop 1) true = true
        · rw [if_pos h3]
          constructor
          · intro h; simp at h
          · rintro ⟨pre, q, suf, heq, hq, hmatch, hpre⟩
            rcases pre with _ | ⟨a, pre'⟩
            · cases heq
              rw [h2] at hq
              exact absurd hq (by simp)
            · rcases List.cons.injEq _ _ _ _ ▸ heq with ⟨rfl, hrest⟩
              have := hpre p (List.mem_cons_self p pre') h2
              rw [h3] at this
              exact absurd this (by simp)
        · rw [if_neg h3, ih]
          have h3' : matchesPattern isDir filePath (p.drop 1) true = false := by
            simpa using h3
          constructor
          · rintro ⟨pre, q, suf, heq, hq, hmatch, hpre⟩
            exact ⟨p :: pre, q, suf, by simp [heq], hq, hmatch, by
              intro r hr hneg
              rcases List.mem_cons.mp hr with rfl | hr'
              · exact h3'
              · exact hpre r hr' hneg⟩
          · rintro ⟨pre, q, suf, heq, hq, hmatch, hpre⟩
            rcases pre with _ | ⟨a, pre'⟩
            · cases heq
              rw [h2] at hq
              exact absurd hq (by simp)
            · rcases List.cons.injEq _ _ _ _ ▸ heq with ⟨rfl, hrest⟩
              exact ⟨pre', q, suf, hrest, hq, hmatch,
                fun r hr => hpre r (List.mem_cons_of_mem _ hr)⟩
      · rw [if_neg h2]
        have h2' : strStartsWith p ['!'] = false := by simpa using h2
        by_cases h4 : matchesPattern isDir filePath p true = true
        · rw [if_pos h4]
          constructor
          · intro _
            exact ⟨[], p, rest, rfl, h2', h4, by intro r hr; simp at hr⟩
          · intro _; rfl
        · rw [if_neg h4, ih]
          constructor
          · rintro ⟨pre, q, suf, heq, hq, hmatch, hpre⟩
            exact ⟨p :: pre, q, suf, by simp [heq], hq, hmatch, by
              intro r hr hneg
              rcases List.mem_cons.mp hr with rfl | hr'
              · rw [h2'] at hneg; exact absurd hneg (by simp)
              · exact hpre r hr' hneg⟩
          · rintro ⟨pre, q, suf, heq, hq, hmatch, hpre⟩
            rcases pre with _ | ⟨a, pre'⟩
            · cases heq
              exact absurd hmatch h4
            · rcases List.cons.injEq _ _ _ _ ▸ heq with ⟨rfl, hrest⟩
              exact ⟨pre', q, suf, hrest, hq, hmatch,
                fun r hr => hpre r (List.mem_cons_of_mem _ hr)⟩

theorem matchesInclusionPatterns_eq_loop (isDir : Bool) (filePath : Str) (incl : List Str) :
    matchesInclusionPatterns isDir filePath incl = inclusionLoop isDir filePath incl := by
  rcases incl with _ | ⟨p, rest⟩
  · rfl
  · simp [matchesInclusionPatterns]

/-- C1 counterexample: with inclusion list `["a.txt", "!a.txt"]` on the
(non-excluded) path `a.txt`, the code includes the path — the first matching
pattern wins — while the claim's later-negation reading rejects it. -/
theorem C1_counterexample :
    matchesExclusionPatterns false "a.txt".data [] = false ∧
    IsIncluded (some false) "a.txt".data [] ["a.txt".data, "!a.txt".data] = true ∧
    specC1Included false "a.txt".data ["a.txt".data, "!a.txt".data] = false := by
  refine ⟨by decide, by decide, by decide⟩

/-- **C1 (amended).** For every path not marked excluded, `IsIncluded`
returns true iff the path matches at least one non-negated inclusion pattern
that is not preceded by an **earlier** matching negated inclusion pattern
(the first matching pattern in list order decides); an empty inclusion list
includes nothing. -/
theorem C1_first_match_inclusion (statResult : Option Bool) (filePath : Str)
    (exclusionPatterns inclusionPatterns : List Str)
    (hnotexcl : matchesExclusionPatterns (statIsDir statResult filePath) filePath
      exclusionPatterns = false) :
    (IsIncluded statResult filePath exclusionPatterns inclusionPatterns = true ↔
      earlierNegIncluded (statIsDir statResult filePath) filePath inclusionPatterns) ∧
    (inclusionPatterns = [] →
      IsIncluded statResult filePath exclusionPatterns inclusionPatterns = false) := by
  constructor
  · rw [IsIncluded, isIncluded, if_neg (by simp [hnotexcl]),
      matchesInclusionPatterns_eq_loop]
    exact inclusionLoop_iff _ _ _
  · intro h
    subst h
    simp [IsIncluded, isIncluded, matchesInclusionPatterns, hnotexcl]

/-- C1 amended-claim witness: `["!b.txt", "a.txt"]` includes `a.txt` (the
negated pattern that comes earlier does not match it). -/
theorem C1_first_match_inclusion_witness :
    matchesExclusionPatterns false "a.txt".data [] = false ∧
    IsIncluded (some false) "a.txt".data [] ["!b.txt".data, "a.txt".data] = true := by
  refine ⟨by decide, ?_⟩
  exact (C1_first_match_inclusion (some false) "a.txt".data [] _ (by decide)).1.mpr
    ⟨["!b.txt".data], "a.txt".data, [], rfl, by decide, by decide, by decide⟩

/-! ## C5: order-insensitive content hashing -/

theorem strLe_total : ∀ a b : Str, (strLe a b || strLe b a) = true := by
  intro a
  induction a with
  | nil => intro b; simp [strLe]
  | cons x xs ih =>
    intro b
    cases b with
    | nil => simp [strLe]
    | cons y ys =>
      by_cases hxy : x = y
      · subst hxy
        simpa [strLe] using ih ys
      · rcases lt_or_gt_of_ne hxy with h | h
        · simp [strLe, hxy, h]
        · have hyx : ¬ y = x := fun hc => hxy hc.symm
          simp [strLe, hxy, hyx, h, le_of_lt]

theorem strLe_trans : ∀ a b c : Str, strLe a b = true → strLe b c = true → strLe a c = true := by
  intro a
  induction a with
  | nil => intro b c _ _; simp [strLe]
  | cons x xs ih =>
    intro b c hab hbc
    cases b with
    | nil => simp [strLe] at hab
    | cons y ys =>
      cases c with
      | nil => simp [strLe] at hbc
      | cons z zs =>
        by_cases hxy : x = y <;> by_cases hyz : y = z
        · subst hxy; subst hyz
          rw [strLe] at hab hbc ⊢
          simp only [if_pos rfl] at *
          exact ih ys zs hab hbc
        · subst hxy
          rw [strLe] at hbc ⊢
          rw [if_neg hyz] at hbc
          rw [if_neg hyz]
          exact hbc
        · subst hyz
          rw [strLe] at hab ⊢
          rw [if_neg hxy] at hab
          rw [if_neg hxy]
          exact hab
        · rw [strLe] at hab hbc ⊢
          rw [if_neg hxy] at hab
          rw [if_neg hyz] at hbc
          have hxz : x < z := lt_trans (of_decide_eq_true hab) (of_decide_eq_true hbc)
          have hxz' : ¬ x = z := ne_of_lt hxz
          rw [if_neg hxz']
          exact decide_eq_true hxz

theorem strLe_antisymm : ∀ a b : Str, strLe a b = true → strLe b a = true → a = b := by
  intro a
  induction a with
  | nil =>
    intro b _ hba
    cases b with
    | nil => rfl
    | cons y ys => simp [strLe] at hba
  | cons x xs ih =>
    intro b hab hba
    cases b with
    | nil => simp [strLe] at hab
    | cons y ys =>
      by_cases hxy : x = y
      · subst hxy
        rw [strLe, if_pos rfl] at hab hba
        rw [ih ys hab hba]
      · have hyx : ¬ y = x := fun hc => hxy hc.symm
        rw [strLe, if_neg hxy] at hab
        rw [strLe, if_neg hyx] at hba
        exact absurd (of_decide_eq_true hba) (not_lt_of_gt (of_decide_eq_true hab))

/-- Sorting is a canonical form: permuted inputs sort identically. -/
theorem sortStrings_perm_eq {l₁ l₂ : List Str} (h : l₁.Perm l₂) :
    sortStrings l₁ = sortStrings l₂ := by
  haveI : IsAntisymm Str (fun a b => strLe a b = true) := ⟨strLe_antisymm⟩
  have s1 := @List.sorted_mergeSort Str strLe strLe_trans strLe_total l₁
  have s2 := @List.sorted_mergeSort Str strLe strLe_trans strLe_total l₂
  have hperm : (l₁.mergeSort strLe).Perm (l₂.mergeSort strLe) :=
    (List.mergeSort_perm l₁ strLe).trans (h.trans (List.mergeSort_perm l₂ strLe).symm)
  exact List.eq_of_perm_of_sorted hperm s1 s2

/-- **C5.** The content hash computed from a module's direct children is
invariant under permutation of the children: modules whose direct children
carry the same multiset of hashes hash identically. -/
theorem C5_contentHash_perm_invariant (m₁ m₂ : Module)
    (h : (m₁.modules.map Module.md5 ++ m₁.files.map FileRef.md5).Perm
      (m₂.modules.map Module.md5 ++ m₂.files.map FileRef.md5)) :
    computeHashFromChildren m₁.modules m₁.files =
      computeHashFromChildren m₂.modules m₂.files := by
  unfold computeHashFromChildren computeHashFromBytes
  exact congrArg List.flatten (sortStrings_perm_eq h)

/-- C5 witness: two modules holding the same two files in swapped order hash
identically. -/
theorem C5_contentHash_perm_invariant_witness :
    (c5M1.modules.map Module.md5 ++ c5M1.files.map FileRef.md5).Perm
      (c5M2.modules.map Module.md5 ++ c5M2.files.map FileRef.md5) ∧
    computeHashFromChildren c5M1.modules c5M1.files =
      computeHashFromChildren c5M2.modules c5M2.files :=
  ⟨by decide, C5_contentHash_perm_invariant c5M1 c5M2 (by decide)⟩

/-! ## C4: execution-context validation -/

/-- `filepath.Rel` errors when exactly one of the two paths is absolute, so
no such pair is in a descendant relationship. -/
theorem isDescendant_abs_mismatch {parent child : GoPath} (h : parent.abs ≠ child.abs) :
    isDescendant parent child = false := by
  simp [isDescendant, goRel, h]

/-- **C4.** `NewExecutionContext` fails exactly when ProjectRoot or
WorkingDir is not absolute, or the `.vyb` marker directory is missing from
ProjectRoot, or WorkingDir is not ProjectRoot or a descendant of it, or a
supplied target file does not exist, is a directory, or is not a descendant
of WorkingDir; on success TargetDir is the target file's parent directory
when a target was supplied and WorkingDir otherwise. -/
theorem C4_newExecutionContext_validation (stat : GoPath → Option Bool)
    (projectRoot workingDir : GoPath) (targetFile : Option GoPath) :
    (NewExecutionContext stat projectRoot workingDir targetFile = none ↔
      (projectRoot.abs = false ∨ workingDir.abs = false ∨
        ¬ stat (filepathJoin projectRoot vybDirName) = some true ∨
        isDescendant projectRoot workingDir = false ∨
        ∃ t, targetFile = some t ∧
          (stat t = none ∨ stat t = some true ∨ isDescendant workingDir t = false))) ∧
    (∀ t, targetFile = some t →
      ∀ ec, NewExecutionContext stat projectRoot workingDir targetFile = some ec →
        ec = ExecutionContext.mk projectRoot workingDir (filepathDir t)) ∧
    (targetFile = none →
      ∀ ec, NewExecutionContext stat projectRoot workingDir targetFile = some ec →
        ec = ExecutionContext.mk projectRoot workingDir workingDir) := by
  refine ⟨?_, ?_, ?_⟩
  · rcases targetFile with _ | t
    · rw [NewExecutionContext]
      by_cases h1 : (!projectRoot.abs || !workingDir.abs) = true
      · rw [if_pos h1]
        simp only [Bool.or_eq_true, Bool.not_eq_true'] at h1
        simp [h1]
        tauto
      · rw [if_neg h1]
        simp only [Bool.or_eq_true, Bool.not_eq_true'] at h1
        push_neg at h1
        simp only [Option.any_none, Bool.false_eq_true, if_false]
        by_cases h2 : stat (filepathJoin projectRoot vybDirName) = some true
        · rw [if_neg (by simp [h2])]
          by_cases h3 : isDescendant projectRoot workingDir = true
          · rw [if_neg (by simp [h3])]
            simp [h1.1, h1.2, h2, h3]
          · rw [if_pos (by simp only [Bool.not_eq_true] at h3; simp [h3])]
            simp only [Bool.not_eq_true] at h3
            simp [h3]
        · rw [if_pos (by simp [h2])]
          simp [h2]
    · rw [NewExecutionContext]
      by_cases h1 : (!projectRoot.abs || !workingDir.abs) = true
      · rw [if_pos h1]
        simp only [Bool.or_eq_true, Bool.not_eq_true'] at h1
        simp [h1]
        tauto
      · rw [if_neg h1]
        simp only [Bool.or_eq_true, Bool.not_eq_true'] at h1
        push_neg at h1
        by_cases ht : t.abs = true
        · rw [if_neg (by simp [ht])]
          by_cases h2 : stat (filepathJoin projectRoot vybDirName) = some true
          · rw [if_neg (by simp [h2])]
            by_cases h3 : isDescendant projectRoot workingDir = true
            · rw [if_neg (by simp [h3])]
              rcases hst : stat t with _ | b
              · simp [h1.1, h1.2, h2, h3, hst]
              · cases b
                · by_cases h4 : isDescendant workingDir t = true
                  · rw [if_neg (by simp [h4])]
                    simp [h1.1, h1.2, h2, h3, hst, h4]
                  · rw [if_pos (by simp only [Bool.not_eq_true] at h4; simp [h4])]
                    simp only [Bool.not_eq_true] at h4
                    simp [h4]
                · simp [h1.1, h1.2, h2, h3, hst]
            · rw [if_pos (by simp only [Bool.not_eq_true] at h3; simp [h3])]
              simp only [Bool.not_eq_true] at h3
              simp [h3]
          · rw [if_pos (by simp [h2])]
            simp [h2]
        · rw [if_pos (by simp [ht])]
          simp only [Bool.not_eq_true] at ht
          have hw : workingDir.abs = true := Bool.ne_false_iff.mp h1.2
          have : isDescendant workingDir t = false :=
            isDescendant_abs_mismatch (by rw [hw, ht]; simp)
          simp [this]
  · intro t ht ec hec
    subst ht
    rcases hst : stat t with _ | b
    · rw [NewExecutionContext] at hec
      simp only [hst] at hec
      split_ifs at hec
    · cases b
      · rw [NewExecutionContext] at hec
        simp only [hst] at hec
        split_ifs at hec
        simp at hec
        exact hec.symm
      · rw [NewExecutionContext] at hec
        simp only [hst] at hec
        split_ifs at hec
  · intro ht ec hec
    subst ht
    rw [NewExecutionContext] at hec
    split_ifs at hec
    simpa using hec.symm

/-- C4 witness: with the `c4Stat` filesystem, a valid target file yields the
context whose TargetDir is the file's parent, and a non-existing target is
rejected. -/
theorem C4_newExecutionContext_validation_witness :
    (NewExecutionContext c4Stat (GoPath.mk true ["repo".data])
        (GoPath.mk true ["repo".data, "work".data])
        (some (GoPath.mk true ["repo".data, "work".data, "t.txt".data])) =
      some (ExecutionContext.mk (GoPath.mk true ["repo".data])
        (GoPath.mk true ["repo".data, "work".data])
        (GoPath.mk true ["repo".data, "work".data]))) ∧
    NewExecutionContext c4Stat (GoPath.mk true ["repo".data])
        (GoPath.mk true ["repo".data, "work".data])
        (some (GoPath.mk true ["repo".data, "missing".data])) = none := by
  constructor
  · have h := (C4_newExecutionContext_validation c4Stat (GoPath.mk true ["repo".data])
      (GoPath.mk true ["repo".data, "work".data])
      (some (GoPath.mk true ["repo".data, "work".data, "t.txt".data]))).2.1
    rcases hx : NewExecutionContext c4Stat (GoPath.mk true ["repo".data])
        (GoPath.mk true ["repo".data, "work".data])
        (some (GoPath.mk true ["repo".data, "work".data, "t.txt".data])) with _ | ec
    · exact absurd hx (by decide)
    · rw [h _ rfl ec hx]
      decide
  · exact (C4_newExecutionContext_validation c4Stat (GoPath.mk true ["repo".data])
      (GoPath.mk true ["repo".data, "work".data])
      (some (GoPath.mk true ["repo".data, "missing".data]))).1.mpr
      (Or.inr (Or.inr (Or.inr (Or.inr ⟨_, rfl, Or.inl (by decide)⟩))))

/-! ## C3: selector isolation -/

mutual

theorem walkEntry_under (startDir incl dirPath dirExcl : List Str) (e : FSEntry)
    (p : List Str) (hp : p ∈ walkEntry startDir incl dirPath dirExcl e) :
    underStartDir startDir p = true := by
  cases e with
  | file n c =>
    rw [walkEntry] at hp
    split at hp
    · split at hp
      · rename_i h1 _
        rw [List.mem_singleton.mp hp]
        exact h1
      · simp at hp
    · simp at hp
  | dir n es =>
    rw [walkEntry] at hp
    split at hp
    · simp at hp
    · split at hp
      · simp at hp
      · exact walkEntries_under startDir incl (dirPath ++ [n])
          (dirExcl ++ gitignoreOf es) es p hp

theorem walkEntries_under (startDir incl dirPath dirExcl : List Str) (es : List FSEntry)
    (p : List Str) (hp : p ∈ walkEntries startDir incl dirPath dirExcl es) :
    underStartDir startDir p = true := by
  cases es with
  | nil => rw [walkEntries] at hp; simp at hp
  | cons e rest =>
    rw [walkEntries] at hp
    rcases List.mem_append.mp hp with h | h
    · exact walkEntry_under startDir incl dirPath dirExcl e p h
    · exact walkEntries_under startDir incl dirPath dirExcl rest p h

end

/-- **C3.** Every path returned by `Select` lies under the start directory
derived from the target argument (the `TargetDir` scope), whatever the tree,
the patterns — however permissive — and the base directory. -/
theorem C3_select_isolation (rootEntries : List FSEntry) (commandBaseDir : List Str)
    (target : Option (List Str)) (exclusionPatterns inclusionPatterns : List Str)
    (p : List Str)
    (hp : p ∈ Select rootEntries commandBaseDir target exclusionPatterns inclusionPatterns) :
    underStartDir (computeStartDir rootEntries commandBaseDir target) p = true := by
  rw [Select] at hp
  split at hp
  · simp at hp
  · split at hp
    · simp at hp
    · exact walkEntries_under _ _ _ _ _ p hp

/-- C3 witness: the §8 isolation example — files at `work/a.txt`,
`work/sub/c.txt` and `other/x.txt`, target file `work/sub/c.txt`, inclusion
pattern `*` — selects exactly `work/sub/c.txt`, which lies under the derived
start directory `work/sub`. -/
theorem C3_select_isolation_witness :
    Select c3FS ["work".data] (some ["work".data, "sub".data, "c.txt".data]) []
        ["*".data] = [["work".data, "sub".data, "c.txt".data]] ∧
    underStartDir
      (computeStartDir c3FS ["work".data] (some ["work".data, "sub".data, "c.txt".data]))
      ["work".data, "sub".data, "c.txt".data] = true := by
  refine ⟨by decide, ?_⟩
  exact C3_select_isolation c3FS ["work".data] (some ["work".data, "sub".data, "c.txt".data])
    [] ["*".data] ["work".data, "sub".data, "c.txt".data] (by decide)

/-! ## C6/C7: collapse-pass fixpoint lemmas -/

theorem Module.eta (m : Module) :
    Module.mk m.name m.modules m.files m.directories m.annot m.tokenCount m.md5
      m.localTokenCount = m := by
  cases m
  rfl

theorem mem_attach_map {l : List Module} {f : Module → Module} {x : Module} :
    x ∈ l.attach.map (fun c => f c.val) ↔ ∃ c ∈ l, x = f c := by
  rw [List.attach_map_val l f]
  simp [List.mem_map, eq_comm]

theorem attach_map_eq_self {l : List Module} {f : Module → Module}
    (h : ∀ c ∈ l, f c = c) : l.attach.map (fun c => f c.val) = l := by
  rw [List.attach_map_val l f]
  calc l.map f = l.map id := List.map_congr_left h
  _ = l := List.map_id l

theorem mem_collectAllModulesList {x : Module} :
    ∀ {l : List Module}, x ∈ collectAllModulesList l ↔ ∃ c ∈ l, x ∈ collectAllModules c := by
  intro l
  induction l with
  | nil => rw [collectAllModulesList]; simp
  | cons c cs ih =>
    rw [collectAllModulesList]
    simp only [List.mem_append, ih, List.mem_cons]
    constructor
    · rintro (h | ⟨c', hc', hx⟩)
      · exact ⟨c, Or.inl rfl, h⟩
      · exact ⟨c', Or.inr hc', hx⟩
    · rintro ⟨c', hc' | hc', hx⟩
      · subst hc'; exact Or.inl hx
      · exact Or.inr ⟨c', hc', hx⟩

theorem mem_collectAllModules_iff {x m : Module} :
    x ∈ collectAllModules m ↔ x = m ∨ ∃ c ∈ m.modules, x ∈ collectAllModules c := by
  cases m with
  | mk n mods files dirs ann tc md5 ltc =>
    rw [collectAllModules]
    simp [Module.modules, mem_collectAllModulesList]

theorem self_mem_collectAllModules (m : Module) : m ∈ collectAllModules m :=
  mem_collectAllModules_iff.mpr (Or.inl rfl)

theorem NonnegLocal.self {m : Module} (h : NonnegLocal m) : 0 ≤ m.localTokenCount :=
  h m (self_mem_collectAllModules m)

theorem NonnegLocal.child {m c : Module} (h : NonnegLocal m) (hc : c ∈ m.modules) :
    NonnegLocal c :=
  fun x hx => h x (mem_collectAllModules_iff.mpr (Or.inr ⟨c, hc, hx⟩))

theorem NonnegLocal.mk_intro {n : Str} {mods : List Module} {files : List FileRef}
    {dirs : List Str} {ann : Option Annotation} {tc : Int} {md5 : Str} {ltc : Int}
    (h0 : 0 ≤ ltc) (hch : ∀ c ∈ mods, NonnegLocal c) :
    NonnegLocal (Module.mk n mods files dirs ann tc md5 ltc) := by
  intro x hx
  rcases mem_collectAllModules_iff.mp hx with rfl | ⟨c, hc, hx'⟩
  · simpa [Module.localTokenCount] using h0
  · exact hch c (by simpa [Module.modules] using hc) x hx'

theorem SGood.not_scond {m : Module} (h : SGood m) : m.name ≠ rootName → ¬ scond m := by
  cases h with
  | intro m h1 h2 => exact h1

theorem SGood.children_structural {m : Module} (h : SGood m) : ∀ c ∈ m.modules, SGood c := by
  cases h with
  | intro m h1 h2 => exact h2

theorem BGood.cond {m : Module} (h : BGood m) :
    m.name ≠ rootName → ∀ c ∈ m.modules, ¬ bcond m.localTokenCount c := by
  cases h with
  | intro m h1 h2 => exact h1

theorem BGood.children_budget {m : Module} (h : BGood m) : ∀ c ∈ m.modules, BGood c := by
  cases h with
  | intro m h1 h2 => exact h2

/-- The structural-merge loop, run on a module with structurally-good
children, produces a node with structurally-good children that itself fails
the merge condition (the loop's exit condition). -/
theorem collapseLoop_spec (m : Module) :
    (∀ c ∈ m.modules, SGood c) →
    (∀ c ∈ (collapseLoop m).modules, SGood c) ∧ ¬ scond (collapseLoop m) := by
  induction m using collapseLoop.induct with
  | case1 n dirs ann tc md5 ltc sub ih =>
    intro hch
    have hsub : SGood sub := hch sub (by simp [Module.modules])
    rw [collapseLoop]
    simp only [if_pos rfl]
    exact ih (by simpa [Module.modules] using hsub.children_structural)
  | case2 n files dirs ann tc md5 ltc sub hfiles =>
    intro hch
    rw [collapseLoop]
    rw [if_neg hfiles]
    refine ⟨hch, ?_⟩
    rintro ⟨-, hf⟩
    exact hfiles (by simpa [Module.files] using hf)
  | case3 n files dirs ann tc md5 ltc x hnot =>
    intro hch
    rw [collapseLoop]
    · refine ⟨hch, ?_⟩
      rintro ⟨⟨sub, hsub⟩, -⟩
      exact hnot sub (by simpa [Module.modules] using hsub)
    · exact hnot

/-- The structural-merge loop is the identity on a module that fails the
merge condition. -/
theorem collapseLoop_id (m : Module) (h : ¬ scond m) : collapseLoop m = m := by
  induction m using collapseLoop.induct with
  | case1 n dirs ann tc md5 ltc sub ih =>
    exact absurd ⟨⟨sub, by simp [Module.modules]⟩, by simp [Module.files]⟩ h
  | case2 n files dirs ann tc md5 ltc sub hfiles =>
    rw [collapseLoop]
    rw [if_neg hfiles]
  | case3 n files dirs ann tc md5 ltc x hnot =>
    rw [collapseLoop]
    exact hnot

/-- The structural pass leaves a structurally-good tree behind. -/
theorem SGood_collapseModules (m : Module) : SGood (collapseModules m) := by
  induction m using collapseModules.induct with
  | case1 mods files dirs ann tc md5 ltc ih =>
    rw [collapseModules]
    rw [if_pos rfl]
    refine SGood.intro _ ?_ ?_
    · intro hne
      simp [Module.name] at hne
    · intro c hc
      rcases mem_attach_map.mp (by simpa [Module.modules] using hc) with ⟨c0, hc0, rfl⟩
      exact ih ⟨c0, hc0⟩
  | case2 n mods files dirs ann tc md5 ltc hne ih =>
    rw [collapseModules]
    rw [if_neg hne]
    have hch : ∀ c ∈ (Module.mk n (mods.attach.map fun c => collapseModules c.val) files dirs
        ann tc md5 ltc).modules, SGood c := by
      intro c hc
      rcases mem_attach_map.mp (by simpa [Module.modules] using hc) with ⟨c0, hc0, rfl⟩
      exact ih ⟨c0, hc0⟩
    rcases collapseLoop_spec _ hch with ⟨h1, h2⟩
    exact SGood.intro _ (fun _ => h2) h1

/-- The structural pass is the identity on a structurally-good tree. -/
theorem collapseModules_fixed (m : Module) : SGood m → collapseModules m = m := by
  induction m using collapseModules.induct with
  | case1 mods files dirs ann tc md5 ltc ih =>
    intro h
    rw [collapseModules]
    rw [if_pos rfl]
    rw [attach_map_eq_self
      (fun c hc => ih ⟨c, hc⟩ (h.children_structural c (by simpa [Module.modules] using hc)))]
  | case2 n mods files dirs ann tc md5 ltc hne ih =>
    intro h
    rw [collapseModules]
    rw [if_neg hne]
    rw [attach_map_eq_self
      (fun c hc => ih ⟨c, hc⟩ (h.children_structural c (by simpa [Module.modules] using hc)))]
    exact collapseLoop_id _ (h.not_scond (by simpa [Module.name] using hne))

/-- The budget-merge loop: the parent's local token count never decreases
(token counts being non-negative), the children kept are well-behaved, and
every kept child either was already kept on entry or fails the merge
condition at the final local token count. -/
theorem budgetLoop_spec (files : List FileRef) (ltc : Int) (kept pending : List Module) :
    (∀ c ∈ kept, BGood c ∧ NonnegLocal c) →
    (∀ c ∈ pending, BGood c ∧ NonnegLocal c) →
    ltc ≤ (budgetLoop files ltc kept pending).2.1 ∧
    (∀ c ∈ (budgetLoop files ltc kept pending).2.2, BGood c ∧ NonnegLocal c) ∧
    (∀ c ∈ (budgetLoop files ltc kept pending).2.2,
      c ∈ kept ∨ ¬ bcond (budgetLoop files ltc kept pending).2.1 c) := by
  induction files, ltc, kept, pending using budgetLoop.induct with
  | case1 files ltc kept =>
    intro hk _
    rw [budgetLoop]
    exact ⟨le_refl _, hk, fun c hc => Or.inl hc⟩
  | case2 files ltc kept child rest hcond ih =>
    intro hk hp
    rw [budgetLoop]
    rw [if_pos hcond]
    have hchild := hp child (List.mem_cons_self child rest)
    have hp' : ∀ c ∈ rest ++ child.modules, BGood c ∧ NonnegLocal c := by
      intro c hc
      rcases List.mem_append.mp hc with h | h
      · exact hp c (List.mem_cons_of_mem _ h)
      · exact ⟨hchild.1.children_budget c h, hchild.2.child h⟩
    rcases ih hk hp' with ⟨h1, h2, h3⟩
    refine ⟨?_, h2, h3⟩
    have h0 : 0 ≤ child.localTokenCount := hchild.2.self
    omega
  | case3 files ltc kept child rest hcond ih =>
    intro hk hp
    rw [budgetLoop]
    rw [if_neg hcond]
    have hchild := hp child (List.mem_cons_self child rest)
    have hk' : ∀ c ∈ kept ++ [child], BGood c ∧ NonnegLocal c := by
      intro c hc
      rcases List.mem_append.mp hc with h | h
      · exact hk c h
      · rw [List.mem_singleton.mp h]; exact hchild
    rcases ih hk' (fun c hc => hp c (List.mem_cons_of_mem _ hc)) with ⟨h1, h2, h3⟩
    refine ⟨h1, h2, ?_⟩
    intro c hc
    rcases h3 c hc with hmem | hnb
    · rcases List.mem_append.mp hmem with h | h
      · exact Or.inl h
      · rw [List.mem_singleton.mp h]
        right
        rintro ⟨ha, hb⟩
        exact hcond ⟨ha, by omega⟩
    · exact Or.inr hnb

/-- The budget-merge loop does nothing when no pending child satisfies the
merge condition. -/
theorem budgetLoop_id (files : List FileRef) (ltc : Int) :
    ∀ (pending kept : List Module), (∀ c ∈ pending, ¬ bcond ltc c) →
      budgetLoop files ltc kept pending = (files, ltc, kept ++ pending) := by
  intro pending
  induction pending with
  | nil =>
    intro kept _
    rw [budgetLoop]
    simp
  | cons child rest ih =>
    intro kept h
    rw [budgetLoop]
    have hc := h child (List.mem_cons_self child rest)
    rw [bcond] at hc
    rw [if_neg hc]
    rw [ih (kept ++ [child]) (fun c hc => h c (List.mem_cons_of_mem _ hc))]
    simp

/-- The budget-merge loop and non-negativity: the running local count never
decreases and the kept children stay deeply non-negative. -/
theorem budgetLoop_nonneg (files : List FileRef) (ltc : Int) (kept pending : List Module) :
    (∀ c ∈ kept, NonnegLocal c) →
    (∀ c ∈ pending, NonnegLocal c) →
    ltc ≤ (budgetLoop files ltc kept pending).2.1 ∧
    (∀ c ∈ (budgetLoop files ltc kept pending).2.2, NonnegLocal c) := by
  induction files, ltc, kept, pending using budgetLoop.induct with
  | case1 files ltc kept =>
    intro hk _
    rw [budgetLoop]
    exact ⟨le_refl _, hk⟩
  | case2 files ltc kept child rest hcond ih =>
    intro hk hp
    rw [budgetLoop]
    rw [if_pos hcond]
    have hchild := hp child (List.mem_cons_self child rest)
    have hp' : ∀ c ∈ rest ++ child.modules, NonnegLocal c := by
      intro c hc
      rcases List.mem_append.mp hc with h | h
      · exact hp c (List.mem_cons_of_mem _ h)
      · exact hchild.child h
    rcases ih hk hp' with ⟨h1, h2⟩
    have h0 : 0 ≤ child.localTokenCount := hchild.self
    exact ⟨by omega, h2⟩
  | case3 files ltc kept child rest hcond ih =>
    intro hk hp
    rw [budgetLoop]
    rw [if_neg hcond]
    have hk' : ∀ c ∈ kept ++ [child], NonnegLocal c := by
      intro c hc
      rcases List.mem_append.mp hc with h | h
      · exact hk c h
      · rw [List.mem_singleton.mp h]
        exact hp child (List.mem_cons_self child rest)
    exact ih hk' (fun c hc => hp c (List.mem_cons_of_mem _ hc))

/-- The budget pass preserves non-negativity of all local token counts. -/
theorem NonnegLocal_collapseByTokens (m : Module) :
    NonnegLocal m → NonnegLocal (collapseByTokens m) := by
  induction m using collapseByTokens.induct with
  | case1 mods files dirs ann tc md5 ltc ih =>
    intro hnn
    rw [collapseByTokens]
    rw [if_pos rfl]
    refine NonnegLocal.mk_intro (by simpa [Module.localTokenCount] using hnn.self) ?_
    intro c hc
    rcases mem_attach_map.mp hc with ⟨c0, hc0, rfl⟩
    exact ih ⟨c0, hc0⟩ (hnn.child (by simpa [Module.modules] using hc0))
  | case2 n mods files dirs ann tc md5 ltc hne ih =>
    intro hnn
    rw [collapseByTokens]
    rw [if_neg hne]
    have hp : ∀ c ∈ mods.attach.map (fun c => collapseByTokens c.val), NonnegLocal c := by
      intro c hc
      rcases mem_attach_map.mp hc with ⟨c0, hc0, rfl⟩
      exact ih ⟨c0, hc0⟩ (hnn.child (by simpa [Module.modules] using hc0))
    rcases budgetLoop_nonneg files ltc [] _ (by simp) hp with ⟨h1, h2⟩
    refine NonnegLocal.mk_intro ?_ h2
    have h0 : (0 : Int) ≤ ltc := by simpa [Module.localTokenCount] using hnn.self
    omega

/-- The budget pass leaves a budget-good tree behind. -/
theorem BGood_collapseByTokens (m : Module) :
    NonnegLocal m → BGood (collapseByTokens m) := by
  induction m using collapseByTokens.induct with
  | case1 mods files dirs ann tc md5 ltc ih =>
    intro hnn
    rw [collapseByTokens]
    rw [if_pos rfl]
    refine BGood.intro _ ?_ ?_
    · intro hne
      simp [Module.name] at hne
    · intro c hc
      rcases mem_attach_map.mp (by simpa [Module.modules] using hc) with ⟨c0, hc0, rfl⟩
      exact ih ⟨c0, hc0⟩ (hnn.child hc0)
  | case2 n mods files dirs ann tc md5 ltc hne ih =>
    intro hnn
    rw [collapseByTokens]
    rw [if_neg hne]
    have hp : ∀ c ∈ mods.attach.map (fun c => collapseByTokens c.val),
        BGood c ∧ NonnegLocal c := by
      intro c hc
      rcases mem_attach_map.mp hc with ⟨c0, hc0, rfl⟩
      exact ⟨ih ⟨c0, hc0⟩ (hnn.child hc0), NonnegLocal_collapseByTokens c0 (hnn.child hc0)⟩
    rcases budgetLoop_spec files ltc [] _ (by simp) hp with ⟨h1, h2, h3⟩
    refine BGood.intro _ ?_ ?_
    · intro _ c hc
      rcases h3 c (by simpa [Module.modules] using hc) with hmem | hnb
      · simp at hmem
      · simpa [Module.localTokenCount] using hnb
    · intro c hc
      exact (h2 c (by simpa [Module.modules] using hc)).1

/-- The budget pass is the identity on a budget-good tree. -/
theorem collapseByTokens_fixed (m : Module) : BGood m → collapseByTokens m = m := by
  induction m using collapseByTokens.induct with
  | case1 mods files dirs ann tc md5 ltc ih =>
    intro h
    rw [collapseByTokens]
    rw [if_pos rfl]
    rw [attach_map_eq_self
      (fun c hc => ih ⟨c, hc⟩ (h.children_budget c (by simpa [Module.modules] using hc)))]
  | case2 n mods files dirs ann tc md5 ltc hne ih =>
    intro h
    rw [collapseByTokens]
    rw [if_neg hne]
    rw [attach_map_eq_self
      (fun c hc => ih ⟨c, hc⟩ (h.children_budget c (by simpa [Module.modules] using hc)))]
    rw [budgetLoop_id files ltc mods []
      (by simpa [Module.modules, Module.localTokenCount] using
        h.cond (by simpa [Module.name] using hne))]
    simp

/-- **C6 (amended).** Each collapse pass is individually idempotent — the
structural pass unconditionally, the budget pass on trees whose local token
counts are non-negative (as every built tree's are).  The two-pass
composition `structural; budget` is *not* idempotent in general (see the C6
counterexample): the budget pass can leave a non-root module with exactly one
child and no files, which a second structural pass then collapses. -/
theorem C6_each_pass_idempotent (m : Module) :
    collapseModules (collapseModules m) = collapseModules m ∧
    (NonnegLocal m → collapseByTokens (collapseByTokens m) = collapseByTokens m) :=
  ⟨collapseModules_fixed _ (SGood_collapseModules m),
   fun h => collapseByTokens_fixed _ (BGood_collapseByTokens m h)⟩

/-- C6 amended-claim witness on a concrete non-negative tree. -/
theorem C6_each_pass_idempotent_witness :
    NonnegLocal c6W ∧
    collapseModules (collapseModules c6W) = collapseModules c6W ∧
    collapseByTokens (collapseByTokens c6W) = collapseByTokens c6W := by
  have hnn : NonnegLocal c6W := by unfold NonnegLocal; decide
  exact ⟨hnn, (C6_each_pass_idempotent c6W).1, (C6_each_pass_idempotent c6W).2 hnn⟩

/-- C6 counterexample: on `c6Root`, running the two collapse passes
(structural then budget) twice differs from running them once — the budget
pass merges the empty child `p/a` into `p`, leaving `p` with a single child
`p/b` and no files, and the second structural pass then collapses `p` into
`p/b`. -/
theorem C6_counterexample :
    collapsePasses (collapsePasses c6Root) ≠ collapsePasses c6Root := by
  have e1 : collapsePasses c6Root =
      Module.mk ".".data [Module.mk "p".data [c6B] [] [] none 20000 "hp".data 20000]
        [] [] none 20000 "hr".data 0 := by
    simp [collapsePasses, collapseModules, collapseLoop, collapseByTokens, budgetLoop,
      c6Root, c6P, c6A, c6B, rootName, minTokenCountPerModule, maxTokenCountPerModule,
      Module.name, Module.modules, Module.files, Module.localTokenCount]
  have e2 : collapsePasses
      (Module.mk ".".data [Module.mk "p".data [c6B] [] [] none 20000 "hp".data 20000]
        [] [] none 20000 "hr".data 0) =
      Module.mk ".".data [Module.mk "p/b".data [] [c6File] [] none 20000 "hp".data 20000]
        [] [] none 20000 "hr".data 0 := by
    simp [collapsePasses, collapseModules, collapseLoop, collapseByTokens, budgetLoop,
      c6B, rootName, minTokenCountPerModule, maxTokenCountPerModule,
      Module.name, Module.modules, Module.files, Module.localTokenCount]
  rw [e1, e2]
  intro h
  have h2 := congrArg (fun t => t.modules.map Module.name) h
  simp [Module.modules, Module.name] at h2

/-- One step of either branch of `collapseByTokens` keeps the module's
name. -/
theorem collapseByTokens_name (m : Module) : (collapseByTokens m).name = m.name := by
  cases m with
  | mk n mods files dirs ann tc md5 ltc =>
    rw [collapseByTokens]
    split
    · simp [Module.name]
    · simp [Module.name]

/-- A budget-good tree, read off node by node: no module other than ones
named `"."` has a child satisfying the merge condition. -/
theorem BGood_all {t : Module} (h : BGood t) :
    ∀ x ∈ collectAllModules t, x.name ≠ rootName →
      ∀ c ∈ x.modules, ¬ bcond x.localTokenCount c := by
  induction h with
  | intro m h1 h2 ih =>
    intro x hx hne c hc
    rcases mem_collectAllModules_iff.mp hx with rfl | ⟨c0, hc0, hx'⟩
    · exact h1 hne c hc
    · exact ih c0 hc0 x hx' hne c hc

/-- **C7 (amended).** After the budget-collapse pass (on a tree with
non-negative token counts): every module of the result other than ones named
`"."` has no child left satisfying the merge condition — all eligible merges
below non-root parents have been performed bottom-up to a fixpoint; the root
module is never merged away (its name is preserved), and the root's direct
children are never merged into it (the pass skips merging at the root, so
the root keeps exactly the recursively-processed images of its children). -/
theorem C7_budget_collapse_fixpoint (m : Module) (hnn : NonnegLocal m) :
    (∀ x ∈ collectAllModules (collapseByTokens m), x.name ≠ rootName →
      ∀ c ∈ x.modules, ¬ bcond x.localTokenCount c) ∧
    (collapseByTokens m).name = m.name ∧
    (m.name = rootName →
      (collapseByTokens m).modules = m.modules.map collapseByTokens) := by
  refine ⟨BGood_all (BGood_collapseByTokens m hnn), collapseByTokens_name m, ?_⟩
  intro hroot
  cases m with
  | mk n mods files dirs ann tc md5 ltc =>
    rw [Module.name] at hroot
    subst hroot
    rw [collapseByTokens]
    rw [if_pos rfl]
    rw [Module.modules, Module.modules]
    exact List.attach_map_val mods collapseByTokens

/-- C7 amended-claim witness. -/
theorem C7_budget_collapse_fixpoint_witness :
    NonnegLocal c7W ∧
    (∀ x ∈ collectAllModules (collapseByTokens c7W), x.name ≠ rootName →
      ∀ c ∈ x.modules, ¬ bcond x.localTokenCount c) ∧
    (collapseByTokens c7W).name = c7W.name := by
  have hnn : NonnegLocal c7W := by unfold NonnegLocal; decide
  exact ⟨hnn, (C7_budget_collapse_fixpoint c7W hnn).1, (C7_budget_collapse_fixpoint c7W hnn).2.1⟩

/-- C7 counterexample: the direct child `a` of the root has local token
count 0 (below the minimum) and the root could absorb it within the maximum,
yet the budget pass leaves the tree unchanged — direct children of the root
are never merged into it, contrary to the claim's "including the direct
children of the root". -/
theorem C7_counterexample :
    collapseByTokens c7Root = c7Root ∧
    c7Root.modules = [c7A] ∧
    bcond c7Root.localTokenCount c7A ∧
    (collapseByTokens c7Root).modules = [c7A] := by
  have e : collapseByTokens c7Root = c7Root := by
    simp [collapseByTokens, budgetLoop, c7Root, c7A, rootName,
      Module.name, Module.modules, Module.files, Module.localTokenCount]
  refine ⟨e, by simp [c7Root, Module.modules], ⟨by decide, by decide⟩, by
    rw [e]; simp [c7Root, Module.modules]⟩

/-! ## C8: annotation-preserving patch -/

theorem lookup_mapPut (dst : List (Str × Module)) (k : Str) (v : Module) (n : Str) :
    (mapPut dst k v).lookup n = if n = k then some v else dst.lookup n := by
  induction dst with
  | nil =>
    rw [mapPut]
    by_cases h : n = k
    · subst h
      simp [List.lookup]
    · have hb : (n == k) = false := by simpa using h
      simp [List.lookup, hb, h]
  | cons kv rest ih =>
    rcases kv with ⟨k', v'⟩
    rw [mapPut]
    by_cases h1 : k' = k
    · subst h1
      rw [if_pos rfl]
      by_cases h : n = k'
      · subst h
        simp [List.lookup]
      · have hb : (n == k') = false := by simpa using h
        simp [List.lookup, hb, h]
    · rw [if_neg h1]
      by_cases h : n = k'
      · subst h
        have h2 : ¬ n = k := fun hc => h1 (hc.symm ▸ rfl)
        simp [List.lookup, h2]
      · have hb : (n == k') = false := by simpa using h
        simp [List.lookup, hb, ih]

mutual

theorem lookup_collectModuleMap (m : Module) (dst : List (Str × Module)) (n : Str) :
    (collectModuleMap m dst).lookup n =
      ((collectAllModules m).reverse.find? (fun x => x.name == n)).elim (dst.lookup n) some := by
  cases m with
  | mk n0 mods files dirs ann tc md5 ltc =>
    rw [collectModuleMap, collectAllModules]
    rw [lookup_collectModuleMapList mods _ n]
    rw [List.reverse_cons, List.find?_append]
    rcases h : (collectAllModulesList mods).reverse.find? (fun x => x.name == n) with _ | v
    · rw [h, lookup_mapPut]
      simp only [Option.none_or]
      by_cases he : n = n0
      · subst he
        simp [List.find?, Module.name]
      · have he' : ¬ n0 = n := fun hc => he hc.symm
        have hb : (n0 == n) = false := by simpa using he'
        simp [List.find?, Module.name, hb, he]
    · rw [h]
      rfl

theorem lookup_collectModuleMapList (l : List Module) (dst : List (Str × Module)) (n : Str) :
    (collectModuleMapList l dst).lookup n =
      ((collectAllModulesList l).reverse.find? (fun x => x.name == n)).elim (dst.lookup n)
        some := by
  cases l with
  | nil =>
    rw [collectModuleMapList, collectAllModulesList]
    simp
  | cons c cs =>
    rw [collectModuleMapList, collectAllModulesList]
    rw [lookup_collectModuleMapList cs _ n]
    rw [lookup_collectModuleMap c dst n]
    rw [List.reverse_append, List.find?_append]
    rcases h : (collectAllModulesList cs).reverse.find? (fun x => x.name == n) with _ | v
    · rw [h]
      rfl
    · rw [h]
      rfl

end

theorem find?_reverse_of_nodup {l : List Module}
    (h : (l.map Module.name).Nodup) (n : Str) :
    l.reverse.find? (fun x => x.name == n) = l.find? (fun x => x.name == n) := by
  induction l with
  | nil => rfl
  | cons a t ih =>
    rw [List.map_cons, List.nodup_cons] at h
    rw [List.reverse_cons, List.find?_append]
    by_cases ha : (a.name == n) = true
    · have hn : a.name = n := by simpa using ha
      have ht : ∀ x ∈ t, ¬((x.name == n) = true) := by
        intro x hx hc
        have : x.name = n := by simpa using hc
        exact h.1 (by rw [← hn] at this; exact this ▸ List.mem_map_of_mem Module.name hx)
      have h1 : t.reverse.find? (fun x => x.name == n) = none :=
        List.find?_eq_none.mpr (fun x hx => ht x (List.mem_reverse.mp hx))
      rw [h1]
      simp [List.find?, ha]
    · have ha' : (a.name == n) = false := by simpa using ha
      have h2 : List.find? (fun x => x.name == n) [a] = none := by
        simp [List.find?, ha']
      rw [h2, Option.or_none, ih h.2]
      simp [List.find?, ha']

theorem find?_self_of_nodup {l : List Module}
    (h : (l.map Module.name).Nodup) {x : Module} (hx : x ∈ l) :
    l.find? (fun y => y.name == x.name) = some x := by
  induction l with
  | nil => simp at hx
  | cons a t ih =>
    rw [List.map_cons, List.nodup_cons] at h
    rcases List.mem_cons.mp hx with rfl | hx'
    · simp [List.find?]
    · have ha : (a.name == x.name) = false := by
        simp only [beq_eq_false_iff_ne, ne_eq]
        intro hc
        exact h.1 (hc ▸ List.mem_map_of_mem Module.name hx')
      rw [List.find?]
      rw [ha]
      exact ih h.2 hx'

mutual

theorem mergeAnnotations_pairs (m : Module) (M : List (Str × Module)) :
    (collectAllModules (mergeAnnotations m M)).map (fun x => (x.name, x.annot)) =
      (collectAllModules m).map (fun x =>
        (x.name,
          match M.lookup x.name with
          | some old =>
            if old.md5 = x.md5 ∧ old.annot ≠ none then old.annot else x.annot
          | none => x.annot)) := by
  cases m with
  | mk n0 mods files dirs ann tc md5 ltc =>
    rw [mergeAnnotations]
    rw [collectAllModules, collectAllModules]
    rw [List.map_cons, List.map_cons]
    rw [mergeAnnotationsList_pairs mods M]
    rfl

theorem mergeAnnotationsList_pairs (l : List Module) (M : List (Str × Module)) :
    (collectAllModulesList (mergeAnnotationsList l M)).map (fun x => (x.name, x.annot)) =
      (collectAllModulesList l).map (fun x =>
        (x.name,
          match M.lookup x.name with
          | some old =>
            if old.md5 = x.md5 ∧ old.annot ≠ none then old.annot else x.annot
          | none => x.annot)) := by
  cases l with
  | nil => rfl
  | cons c cs =>
    rw [mergeAnnotationsList, collectAllModulesList, collectAllModulesList]
    rw [List.map_append, List.map_append]
    rw [mergeAnnotations_pairs c M, mergeAnnotationsList_pairs cs M]

end

/-- With unique names, the Go map built by `collectModuleMap` answers
lookups exactly like a first-match search of the collected module list. -/
theorem lookup_oldMap (stored : Module) (huniq : NamesUnique stored) (n : Str) :
    (collectModuleMap stored []).lookup n =
      (collectAllModules stored).find? (fun x => x.name == n) := by
  rw [lookup_collectModuleMap stored [] n]
  rw [find?_reverse_of_nodup huniq n]
  rcases h : (collectAllModules stored).find? (fun x => x.name == n) with _ | v
  · rw [h]
    rfl
  · rw [h]
    rfl

/-- **C8.** Patching (modelled from §4.4 over the source's
`collectModuleMap`/`mergeAnnotations`): (i) a fresh module inherits the
stored module of the same name's annotation exactly when that name occurs in
the stored tree with an identical content hash, and otherwise its annotation
stays empty; (ii) when the fresh tree is structurally identical and
hash-identical to the stored tree, every annotation is preserved and the
added/removed/changed reports are all empty. -/
theorem C8_patch_roundtrip_and_inheritance (stored fresh : Module)
    (huniq : NamesUnique stored)
    (hfresh : ∀ x ∈ collectAllModules fresh, x.annot = none) :
    ((collectAllModules (Patch stored fresh).1).map (fun x => (x.name, x.annot)) =
      (collectAllModules fresh).map (fun f =>
        (f.name,
          match (collectAllModules stored).find? (fun s => s.name == f.name) with
          | some s => if s.md5 = f.md5 then s.annot else none
          | none => none))) ∧
    ((collectAllModules fresh).map (fun x => (x.name, x.md5, x.tokenCount)) =
      (collectAllModules stored).map (fun x => (x.name, x.md5, x.tokenCount)) →
      (collectAllModules (Patch stored fresh).1).map (fun x => (x.name, x.annot)) =
        (collectAllModules stored).map (fun x => (x.name, x.annot)) ∧
      (Patch stored fresh).2 = PatchResult.mk [] [] []) := by
  have hpart1 :
      (collectAllModules (Patch stored fresh).1).map (fun x => (x.name, x.annot)) =
        (collectAllModules fresh).map (fun f =>
          (f.name,
            match (collectAllModules stored).find? (fun s => s.name == f.name) with
            | some s => if s.md5 = f.md5 then s.annot else none
            | none => none)) := by
    have h1 : (Patch stored fresh).1 = mergeAnnotations fresh (collectModuleMap stored []) := rfl
    rw [h1, mergeAnnotations_pairs]
    apply List.map_congr_left
    intro f hf
    rw [lookup_oldMap stored huniq]
    rcases hfind : (collectAllModules stored).find? (fun s => s.name == f.name) with _ | s
    · rw [hfind, hfresh f hf]
    · rw [hfind, hfresh f hf]
      by_cases hm : s.md5 = f.md5
      · by_cases hs : s.annot = none
        · simp [hm, hs]
        · simp [hm, hs]
      · simp [hm]
  refine ⟨hpart1, ?_⟩
  intro hstruct
  have hnames : (collectAllModules fresh).map Module.name =
      (collectAllModules stored).map Module.name := by
    have h := congrArg (List.map (fun t : Str × Str × Int => t.1)) hstruct
    simpa [List.map_map, Function.comp] using h
  have hmatch : ∀ f ∈ collectAllModules fresh, ∃ s ∈ collectAllModules stored,
      s.name = f.name ∧ s.md5 = f.md5 ∧ s.tokenCount = f.tokenCount := by
    intro f hf
    have hmem : (f.name, f.md5, f.tokenCount) ∈
        (collectAllModules stored).map (fun x => (x.name, x.md5, x.tokenCount)) := by
      rw [← hstruct]
      exact List.mem_map_of_mem _ hf
    rcases List.mem_map.mp hmem with ⟨s, hs, he⟩
    rcases Prod.mk.injEq _ _ _ _ ▸ he with ⟨e1, e23⟩
    rcases Prod.mk.injEq _ _ _ _ ▸ e23 with ⟨e2, e3⟩
    exact ⟨s, hs, e1, e2, e3⟩
  constructor
  · rw [hpart1]
    have stepB :
        (collectAllModules fresh).map (fun f =>
          (f.name,
            match (collectAllModules stored).find? (fun s => s.name == f.name) with
            | some s => if s.md5 = f.md5 then s.annot else none
            | none => none)) =
        (collectAllModules fresh).map
          ((fun t : Str × Str × Int =>
            (t.1,
              match (collectAllModules stored).find? (fun s => s.name == t.1) with
              | some s => if s.md5 = t.2.1 then s.annot else none
              | none => none)) ∘ (fun x => (x.name, x.md5, x.tokenCount))) := by
      apply List.map_congr_left
      intro f _
      rfl
    rw [stepB, ← List.map_map, hstruct, List.map_map]
    apply List.map_congr_left
    intro s hs
    have hfind := find?_self_of_nodup huniq hs
    simp only [Function.comp]
    rw [hfind]
    simp
  · have h2 : (Patch stored fresh).2 =
        PatchResult.mk
          ((collectAllModules fresh).filterMap (fun f =>
            match (collectModuleMap stored []).lookup f.name with
            | some old =>
              if old.tokenCount ≠ f.tokenCount then
                some (f.name, ModuleChange.mk old.tokenCount f.tokenCount)
              else none
            | none => none))
          (((collectAllModules fresh).map Module.name).filter
            (fun n => !(((collectAllModules stored).map Module.name).contains n)))
          (((collectAllModules stored).map Module.name).filter
            (fun n => !(((collectAllModules fresh).map Module.name).contains n))) := rfl
    rw [h2]
    have hchanged : (collectAllModules fresh).filterMap (fun f =>
        match (collectModuleMap stored []).lookup f.name with
        | some old =>
          if old.tokenCount ≠ f.tokenCount then
            some (f.name, ModuleChange.mk old.tokenCount f.tokenCount)
          else none
        | none => none) = [] := by
      rw [List.filterMap_eq_nil_iff]
      intro f hf
      rcases hmatch f hf with ⟨s, hs, e1, -, e3⟩
      rw [lookup_oldMap stored huniq]
      rw [← e1, find?_self_of_nodup huniq hs]
      simp [e3]
    have hadded : ((collectAllModules fresh).map Module.name).filter
        (fun n => !(((collectAllModules stored).map Module.name).contains n)) = [] := by
      rw [List.filter_eq_nil_iff]
      intro n hn
      rw [hnames] at hn
      simp [hn]
    have hremoved : ((collectAllModules stored).map Module.name).filter
        (fun n => !(((collectAllModules fresh).map Module.name).contains n)) = [] := by
      rw [List.filter_eq_nil_iff]
      intro n hn
      rw [hnames]
      simp [hn]
    rw [hchanged, hadded, hremoved]

/-- C8 witness: a stored tree with annotations, a hash-identical
annotation-free fresh tree (round trip: annotations preserved, empty diff),
and a fresh tree with a changed root hash (root annotation not inherited). -/
theorem C8_patch_roundtrip_and_inheritance_witness :
    NamesUnique c8Stored ∧
    (∀ x ∈ collectAllModules c8FreshEq, x.annot = none) ∧
    (∀ x ∈ collectAllModules c8Fresh, x.annot = none) ∧
    ((collectAllModules (Patch c8Stored c8FreshEq).1).map (fun x => (x.name, x.annot)) =
      (collectAllModules c8Stored).map (fun x => (x.name, x.annot)) ∧
      (Patch c8Stored c8FreshEq).2 = PatchResult.mk [] [] []) ∧
    (collectAllModules (Patch c8Stored c8Fresh).1).map (fun x => (x.name, x.annot)) =
      (collectAllModules c8Fresh).map (fun f =>
        (f.name,
          match (collectAllModules c8Stored).find? (fun s => s.name == f.name) with
          | some s => if s.md5 = f.md5 then s.annot else none
          | none => none)) := by
  have h1 : NamesUnique c8Stored := by unfold NamesUnique; decide
  have h2 : ∀ x ∈ collectAllModules c8FreshEq, x.annot = none := by decide
  have h3 : ∀ x ∈ collectAllModules c8Fresh, x.annot = none := by decide
  have h4 : (collectAllModules c8FreshEq).map (fun x => (x.name, x.md5, x.tokenCount)) =
      (collectAllModules c8Stored).map (fun x => (x.name, x.md5, x.tokenCount)) := by decide
  exact ⟨h1, h2, h3,
    (C8_patch_roundtrip_and_inheritance c8Stored c8FreshEq h1 h2).2 h4,
    (C8_patch_roundtrip_and_inheritance c8Stored c8Fresh h1 h3).1⟩

/-! ## C9: annotation scheduling -/

/-- **C9.** In every reachable state of the annotation scheduler: the
summarizer has been invoked only for modules lacking an annotation; every
invocation happened only after the completion signals of all the module's
direct children had fired (completion signals are never retracted, so they
are still fired in the current state); and every module that already carried
an annotation has its completion signal pre-satisfied and is never
invoked. -/
theorem C9_annotate_scheduling (root : Module) (s : SchedState) (h : SchedReach root s) :
    (∀ a ∈ s.started, ∃ m, moduleAt root a = some m ∧ m.annot = none) ∧
    (∀ a ∈ s.started, ∀ c ∈ childAddrs root a, c ∈ s.done) ∧
    (∀ a ∈ preDone root, a ∈ s.done ∧ a ∉ s.started) := by
  induction h with
  | init =>
    refine ⟨?_, ?_, ?_⟩
    · intro a ha
      simp [initSchedState] at ha
    · intro a ha
      simp [initSchedState] at ha
    · intro a ha
      exact ⟨by simpa [initSchedState] using ha, by simp [initSchedState]⟩
  | step hr hstep ih =>
    rcases ih with ⟨ih1, ih2, ih3⟩
    cases hstep with
    | invoke a m hm hann hnots hchild =>
      refine ⟨?_, ?_, ?_⟩
      · intro x hx
        rcases List.mem_append.mp hx with hx' | hx'
        · exact ih1 x hx'
        · rw [List.mem_singleton.mp hx']
          exact ⟨m, hm, hann⟩
      · intro x hx
        rcases List.mem_append.mp hx with hx' | hx'
        · exact ih2 x hx'
        · rw [List.mem_singleton.mp hx']
          exact hchild
      · intro x hx
        refine ⟨(ih3 x hx).1, ?_⟩
        intro hx'
        rcases List.mem_append.mp hx' with hx'' | hx''
        · exact (ih3 x hx).2 hx''
        · rw [List.mem_singleton.mp hx''] at hx
          rcases List.mem_filter.mp hx with ⟨-, hcond⟩
          rw [hm] at hcond
          simp [hann] at hcond
    | finish a hstart hnotdone =>
      refine ⟨ih1, ?_, ?_⟩
      · intro x hx c hc
        exact List.mem_append_left _ (ih2 x hx c hc)
      · intro x hx
        exact ⟨List.mem_append_left _ (ih3 x hx).1, (ih3 x hx).2⟩

/-- C9 witness: a root lacking an annotation with one annotated child.  The
child's completion channel is pre-closed, so the root's goroutine can invoke
the summarizer immediately; the reached state satisfies all three scheduling
invariants. -/
theorem C9_annotate_scheduling_witness :
    SchedReach c9Root c9State ∧
    (∀ a ∈ c9State.started, ∃ m, moduleAt c9Root a = some m ∧ m.annot = none) ∧
    (∀ a ∈ c9State.started, ∀ c ∈ childAddrs c9Root a, c ∈ c9State.done) ∧
    (∀ a ∈ preDone c9Root, a ∈ c9State.done ∧ a ∉ c9State.started) := by
  have hreach : SchedReach c9Root c9State := by
    have hstep : SchedStep c9Root (initSchedState c9Root) c9State := by
      have h := @SchedStep.invoke c9Root (initSchedState c9Root) [] c9Root rfl rfl
        (by simp [initSchedState]) (by decide)
      simpa [initSchedState, c9State] using h
    exact SchedReach.step SchedReach.init hstep
  have h := C9_annotate_scheduling c9Root c9State hreach
  exact ⟨hreach, h.1, h.2.1, h.2.2⟩

end Vyb
